import Mathlib

/-!
RandomSampler and ForestTrainer of tsgrf: a shallow embedding of
`core/src/sampling/RandomSampler.cpp` and `forest/ForestTrainer.cpp`.

Conventions of the embedding.

* `size_t` values are natural numbers; a `std::vector<size_t>` is a `List Nat`.
* A `double` fraction is a rational number. In the sampler the sizes
  `(size_t) std::ceil(n * fraction)`, `std::round(n * fraction)` and
  `static_cast<size_t>(n * fraction)` are the ceiling, the rounding and the floor of the exact
  product. In `block_and_split` the block count `std::ceil(std::pow(n, 1.0 / g))` and in
  `train_trees` the products of the feasibility test are computed as the program computes
  them, in IEEE 754 double precision with rounding to nearest, ties to even (`round_double`,
  `Double`); `std::pow` itself belongs to the C library and is a parameter.
* Functions that can leave the defined behaviour of C++ (an index or an iterator outside its
  vector, a division by zero, a size that wraps below zero) return `Option`; `none` is such a
  fault (or, for the rejection loop of `draw_simple`, a loop that has not finished within its
  fuel).
* The member `random_number_generator` and the `nonstd` distributions that consume it live in
  headers that are not among the sources at hand. They are a parameter `Random G` over an
  arbitrary generator state `G`, which is passed explicitly. The C library `rand()` is a
  second, independent source with its own state `C`.
* What the trainer uses from outside the sources at hand (the tree grower, `split_sequence`,
  the standard generator of a batch, `std::sort`) is gathered in `Environment`. A call of the
  trainer ends in a value or in a `Failure`.
-/

namespace grf

/-! ## Numbers -/

/-- The value of `(size_t) std::ceil(n * fraction)` for a size `n` and a fraction. -/
def ceil_mul (n : Nat) (fraction : ℚ) : Nat := ⌈(n : ℚ) * fraction⌉₊

/-! ## Double precision -/

/-- Rounding of a rational to the nearest integer, a tie going to the even neighbour. -/
def round_half_even (q : ℚ) : Int :=
  if q - ⌊q⌋ < 1 / 2 then ⌊q⌋
  else if 1 / 2 < q - ⌊q⌋ then ⌊q⌋ + 1
  else if ⌊q⌋ % 2 = 0 then ⌊q⌋ else ⌊q⌋ + 1

/-- The binary exponent of a double near `q`: the `e` with `2 ^ e ≤ |q| < 2 ^ (e + 1)`, and
`-1022` for the subnormal range (and for zero, where it does not matter). -/
def binade (q : ℚ) : Int := max (Int.log 2 |q|) (-1022)

/-- The value of the IEEE 754 binary64 rounding of the exact result `q` of an operation
(round to nearest, ties to even, 53 significant bits, gradual underflow), before the test for
overflow. -/
@[irreducible] def round_double (q : ℚ) : ℚ :=
  (round_half_even (q / 2 ^ (binade q - 52)) : ℚ) * 2 ^ (binade q - 52)

/-- A value of type `double`: a finite number, an infinity or a NaN. -/
inductive Double where
  | finite (value : ℚ)
  | pos_inf
  | neg_inf
  | nan

/-- The double that an operation with exact result `q` returns: the rounding of `q`, or an
infinity when the rounding leaves the finite range. The conversion of a `size_t` to `double`
is such an operation. -/
@[irreducible] def Double.of_exact (q : ℚ) : Double :=
  if 2 ^ 1024 ≤ round_double q then .pos_inf
  else if round_double q ≤ -2 ^ 1024 then .neg_inf
  else .finite (round_double q)

/-- The product `a * b` of two doubles. -/
def Double.mul : Double → Double → Double
  | .finite a, .finite b => Double.of_exact (a * b)
  | .nan, _ => .nan
  | _, .nan => .nan
  | .finite a, .pos_inf => if a = 0 then .nan else if 0 < a then .pos_inf else .neg_inf
  | .finite a, .neg_inf => if a = 0 then .nan else if 0 < a then .neg_inf else .pos_inf
  | .pos_inf, .finite b => if b = 0 then .nan else if 0 < b then .pos_inf else .neg_inf
  | .neg_inf, .finite b => if b = 0 then .nan else if 0 < b then .neg_inf else .pos_inf
  | .pos_inf, .pos_inf => .pos_inf
  | .pos_inf, .neg_inf => .neg_inf
  | .neg_inf, .pos_inf => .neg_inf
  | .neg_inf, .neg_inf => .pos_inf

/-- The comparison `a < 1` of a double with the constant 1; it is false for a NaN. -/
def Double.lt_one : Double → Bool
  | .finite a => decide (a < 1)
  | .pos_inf => false
  | .neg_inf => true
  | .nan => false

/-! ## The random sources -/

/-- The sampler's generator seen through the three `nonstd` facilities the sampler uses:
`nonstd::shuffle(first, last, g)`, `nonstd::uniform_int_distribution<size_t>(a, b)(g)` and
`nonstd::uniform_real_distribution<double>(0.0, 1.0)(g)`. Each consumes the generator state and
returns the new one. -/
structure Random (G : Type) where
  shuffle : {α : Type} → List α → G → List α × G
  uniform_int : Nat → Nat → G → Nat × G
  uniform_real : G → ℚ × G

/-- The shuffle rearranges its range in place: the outcome is a permutation of the input. -/
def Random.ShufflePermutes {G : Type} (R : Random G) : Prop :=
  ∀ (α : Type) (l : List α) (g : G), (R.shuffle l g).1.Perm l

/-- The effect of `v.resize(n)`: keeps the first `n` elements, pads with zeros. -/
def resize (v : List Nat) (n : Nat) : List Nat :=
  v.take n ++ List.replicate (n - v.length) 0

/-- The effect of `std::iota(v.begin(), v.end(), start)`: every element is overwritten. -/
def iota (v : List Nat) (start : Nat) : List Nat :=
  List.range' start v.length

/-- The effect of `std::copy(src.begin(), src.end(), dst.begin())` on `dst`; writing past the
end of `dst` is a fault. -/
def copy (src dst : List Nat) : Option (List Nat) :=
  if src.length ≤ dst.length then some (src ++ dst.drop src.length) else none

/-! ## Subsampling -/

/-- The part of `TreeOptions` read by the sampler: `get_honesty_fraction()` and
`get_honesty_method()`. -/
structure TreeOptions where
  honesty_fraction : ℚ
  honesty_method : Nat

/-- Policy 0, `RandomSampler::subsample_sub0` (lines 184-206). The copy `shuffled_blocks` of
`blocks` is made and never used. -/
def subsample_sub0 {G : Type} (R : Random G) (samples : List Nat) (blocks : List (List Nat))
    (sample_fraction : ℚ) (subsamples oob_samples : List Nat) (g : G) :
    Option (List Nat × List Nat × G) :=
  let sh := R.shuffle samples g
  let shuffled_sample := sh.1
  let _shuffled_blocks := blocks
  let subsample_size := ceil_mul samples.length sample_fraction
  if subsample_size ≤ samples.length then
    let subsamples := resize subsamples subsample_size
    let oob_samples := resize oob_samples (samples.length - subsample_size)
    match copy (shuffled_sample.take subsamples.length) subsamples with
    | none => none
    | some subsamples =>
      match copy (shuffled_sample.drop subsamples.length) oob_samples with
      | none => none
      | some oob_samples => some (subsamples, oob_samples, sh.2)
  else none

/-- One pass of the body of the first loop of policy 1 (lines 220-231), at index `idx`. -/
def sub1_alternate_step (block : List Nat) (subsample_size : Nat)
    (acc : List Nat × List Nat) (idx : Nat) : Option (List Nat × List Nat) :=
  match block[idx]? with
  | none => none
  | some x =>
    if idx < 2 * subsample_size then
      if idx % 2 = 0 then some (acc.1 ++ [x], acc.2) else some (acc.1, acc.2 ++ [x])
    else some (acc.1, acc.2 ++ [x])

/-- One pass of the body of the loop at lines 236-238: `subsamples.push_back(block[idx])`. -/
def sub1_extra_step (block : List Nat) (acc : List Nat × List Nat) (idx : Nat) :
    Option (List Nat × List Nat) :=
  match block[idx]? with
  | none => none
  | some x => some (acc.1 ++ [x], acc.2)

/-- One pass of the body of the loop at lines 240-246. -/
def sub1_rest_step (block : List Nat) (extra_subsamples : Nat)
    (acc : List Nat × List Nat) (idx : Nat) : Option (List Nat × List Nat) :=
  match block[idx]? with
  | none => none
  | some x =>
    if (idx - extra_subsamples) % 2 = 0 then some (acc.1 ++ [x], acc.2)
    else some (acc.1, acc.2 ++ [x])

/-- The body of the loop over the blocks in policy 1 (lines 214-247). -/
def subsample_sub1_block (sample_fraction : ℚ) (acc : List Nat × List Nat)
    (block : List Nat) : Option (List Nat × List Nat) :=
  let total_samples := block.length
  let subsample_size := ceil_mul total_samples sample_fraction
  if subsample_size ≤ total_samples / 2 then
    (List.range total_samples).foldlM (sub1_alternate_step block subsample_size) acc
  else
    let extra_subsamples := subsample_size - total_samples / 2
    match (List.range extra_subsamples).foldlM (sub1_extra_step block) acc with
    | none => none
    | some acc =>
      (List.range' extra_subsamples (total_samples - extra_subsamples)).foldlM
        (sub1_rest_step block extra_subsamples) acc

/-- Policy 1, `RandomSampler::subsample_sub1` (lines 208-249). -/
def subsample_sub1 (_samples : List Nat) (blocks : List (List Nat)) (sample_fraction : ℚ)
    (subsamples oob_samples : List Nat) : Option (List Nat × List Nat) :=
  blocks.foldlM (subsample_sub1_block sample_fraction) (subsamples, oob_samples)

/-- The body of the loop over the blocks in policy 2 (lines 261-265). The iterator
`block.begin() + block_subsample_size` must stay inside the block. -/
def subsample_sub2_block (sample_fraction : ℚ) (acc : List Nat × List Nat)
    (block : List Nat) : Option (List Nat × List Nat) :=
  let block_subsample_size := ceil_mul block.length sample_fraction
  if block_subsample_size ≤ block.length then
    let subsamples := acc.1 ++ block.take block_subsample_size
    if block_subsample_size < block.length then
      some (subsamples, acc.2 ++ block.drop block_subsample_size)
    else some (subsamples, acc.2)
  else none

/-- Policy 2, `RandomSampler::subsample_sub2` (lines 253-267). -/
def subsample_sub2 (_samples : List Nat) (blocks : List (List Nat)) (sample_fraction : ℚ)
    (subsamples oob_samples : List Nat) : Option (List Nat × List Nat) :=
  blocks.foldlM (subsample_sub2_block sample_fraction) (subsamples, oob_samples)

/-- The body of the loop over the blocks in policy 3 (lines 279-292); `rand` is the C library
`rand()` acting on its global state. -/
def subsample_sub3_block {C : Type} (rand : C → Nat × C) (window_size : Nat)
    (acc : List Nat × List Nat × C) (block : List Nat) : List Nat × List Nat × C :=
  if window_size ≥ block.length then
    (acc.1 ++ block, acc.2.1, acc.2.2)
  else
    let r := rand acc.2.2
    let start_index := r.1 % (block.length - window_size + 1)
    let subsamples := acc.1 ++ (block.drop start_index).take window_size
    let oob_samples := if start_index > 0 then acc.2.1 ++ block.take start_index else acc.2.1
    let oob_samples :=
      if start_index + window_size < block.length then
        oob_samples ++ block.drop (start_index + window_size)
      else oob_samples
    (subsamples, oob_samples, r.2)

/-- Policy 3, `RandomSampler::subsample_sub3` (lines 269-294). Reading `blocks[0]` of an empty
vector is a fault. -/
def subsample_sub3 {C : Type} (rand : C → Nat × C) (_samples : List Nat)
    (blocks : List (List Nat)) (sample_fraction : ℚ) (subsamples oob_samples : List Nat)
    (c : C) : Option (List Nat × List Nat × C) :=
  match blocks[0]? with
  | none => none
  | some first =>
    let window_size := ceil_mul first.length sample_fraction
    some (blocks.foldl (subsample_sub3_block rand window_size) (subsamples, oob_samples, c))

/-- The body of the loop over the blocks in policy 4 (lines 304-309). The prefix is read from
`shuffled_block`, the remainder from `block`; the iterator
`shuffled_block.begin() + block_subsample_size` must stay inside the block. -/
def subsample_sub4_block {G : Type} (R : Random G) (block_subsample_size : Nat)
    (acc : List Nat × List Nat × G) (block : List Nat) : Option (List Nat × List Nat × G) :=
  let sh := R.shuffle block acc.2.2
  let shuffled_block := sh.1
  if block_subsample_size ≤ shuffled_block.length then
    let subsamples := acc.1 ++ shuffled_block.take block_subsample_size
    if block_subsample_size < block.length then
      some (subsamples, acc.2.1 ++ block.drop block_subsample_size, sh.2)
    else some (subsamples, acc.2.1, sh.2)
  else none

/-- Policy 4, `RandomSampler::subsample_sub4` (lines 296-311). Reading `blocks[0]` of an empty
vector is a fault. -/
def subsample_sub4 {G : Type} (R : Random G) (_samples : List Nat) (blocks : List (List Nat))
    (sample_fraction : ℚ) (subsamples oob_samples : List Nat) (g : G) :
    Option (List Nat × List Nat × G) :=
  match blocks[0]? with
  | none => none
  | some first =>
    let block_subsample_size := ceil_mul first.length sample_fraction
    blocks.foldlM (subsample_sub4_block R block_subsample_size) (subsamples, oob_samples, g)

/-- The honesty dispatcher `RandomSampler::subsample(samples, blocks, options, subsamples,
oob_samples)` (lines 157-182). The result carries both random states. -/
def subsample_honesty {G C : Type} (R : Random G) (rand : C → Nat × C) (samples : List Nat)
    (blocks : List (List Nat)) (options : TreeOptions) (subsamples oob_samples : List Nat)
    (g : G) (c : C) : Option (List Nat × List Nat × G × C) :=
  let sample_fraction := options.honesty_fraction
  let honesty_method := options.honesty_method
  if honesty_method = 0 then
    (subsample_sub0 R samples blocks sample_fraction subsamples oob_samples g).map
      fun r => (r.1, r.2.1, r.2.2, c)
  else if honesty_method = 1 then
    (subsample_sub1 samples blocks sample_fraction subsamples oob_samples).map
      fun r => (r.1, r.2, g, c)
  else if honesty_method = 2 then
    (subsample_sub2 samples blocks sample_fraction subsamples oob_samples).map
      fun r => (r.1, r.2, g, c)
  else if honesty_method = 3 then
    (subsample_sub3 rand samples blocks sample_fraction subsamples oob_samples c).map
      fun r => (r.1, r.2.1, g, r.2.2)
  else
    (subsample_sub4 R samples blocks sample_fraction subsamples oob_samples g).map
      fun r => (r.1, r.2.1, r.2.2, c)

/-! ## Sampling of rows and of blocks -/

/-- `RandomSampler::shuffle_and_split(samples, n_all, size)` (lines 370-382). -/
def shuffle_and_split {G : Type} (R : Random G) (samples : List Nat) (n_all size : Nat)
    (g : G) : List Nat × G :=
  let samples := resize samples n_all
  let samples := iota samples 0
  let sh := R.shuffle samples g
  (resize sh.1 size, sh.2)

/-- Upward search for the first `b` with `n ≤ b ^ g`, at most `fuel` steps from `b`. -/
def ceil_root_from (n g : Nat) : Nat → Nat → Nat
  | 0, b => b
  | fuel + 1, b => if n ≤ b ^ g then b else ceil_root_from n g fuel (b + 1)

/-- The ceiling of the exact `g`-th root of `n` for `g ≥ 1`, the least `b` with `n ≤ b ^ g`,
found by searching upward from zero. It is what `std::ceil(std::pow(n, 1.0 / g))` would be in
exact real arithmetic; the program computes in doubles (`block_num_of`). -/
def ceil_root (n g : Nat) : Nat := ceil_root_from n g n 0

/-- The value of `(size_t) std::ceil(std::pow(n_all, 1.0 / block_group_size))` (line 391).
`n_all` is converted to `double`, the quotient `1.0 / block_group_size` is a double division,
and `pow` is the C library's `std::pow` on finite doubles. The cases the C standard fixes are
written out: `1.0 / 0` is infinity, and a power with an infinite exponent is 0, 1 or infinity;
a power of zero is zero for a positive exponent and infinity for a negative one. The
conversion to `size_t` of infinity or of a value outside the range of `size_t` is a fault. -/
def block_num_of (pow : ℚ → ℚ → ℚ) (n_all : Nat) (block_group_size : Int) : Option Nat :=
  if block_group_size = 0 then
    if n_all = 0 then some 0 else if n_all = 1 then some 1 else none
  else if n_all = 0 then
    if 0 < block_group_size then some 0 else none
  else
    let power := pow (round_double n_all) (round_double (1 / (block_group_size : ℚ)))
    if power ≤ -1 ∨ 2 ^ 64 ≤ ⌈power⌉₊ then none else some ⌈power⌉₊

/-- One pass of the body of the loop of `block_and_split` (lines 397-402). The state is
`(samples, blocks, index)` and the state of `rand()`. The range
`[samples.begin() + index, samples.begin() + index + block_size)` must lie inside `samples`. -/
def block_and_split_step {C : Type} (rand : C → Nat × C) (n_all block_size : Nat)
    (acc : List Nat × List (List Nat) × Nat × C) (_i : Nat) :
    Option (List Nat × List (List Nat) × Nat × C) :=
  let samples := acc.1
  let blocks := acc.2.1
  let index := acc.2.2.1
  let r := rand acc.2.2.2
  let start_index := r.1 % (n_all - block_size + 1)
  let block := iota (List.replicate block_size 0) start_index
  if index + block_size ≤ samples.length then
    let samples := samples.take index
      ++ iota ((samples.drop index).take block_size) start_index
      ++ samples.drop (index + block_size)
    some (samples, blocks ++ [block], index + block_size, r.2)
  else none

/-- `RandomSampler::block_and_split(samples, n_all, sample_fraction, blocks,
block_group_size)` (lines 385-404). The integer division by a zero `block_num` is a fault. -/
def block_and_split {C : Type} (pow : ℚ → ℚ → ℚ) (rand : C → Nat × C) (samples : List Nat)
    (n_all : Nat) (sample_fraction : ℚ) (blocks : List (List Nat)) (block_group_size : Int)
    (c : C) : Option (List Nat × List (List Nat) × C) :=
  match block_num_of pow n_all block_group_size with
  | none => none
  | some block_num =>
    if block_num = 0 then none
    else
      let block_size := n_all / block_num
      let block_sample_num := ceil_mul block_size sample_fraction
      let samples := resize samples (block_sample_num * block_size)
      ((List.range block_sample_num).foldlM (block_and_split_step rand n_all block_size)
        (samples, blocks, 0, c)).map fun r => (r.1, r.2.1, r.2.2.2)

/-! ## Draws without replacement -/

/-- The difference `a - b` of two `size_t` values (below `2 ^ 64`), which wraps around. -/
def wrap_sub (a b : Nat) : Nat := if b ≤ a then a - b else a + 2 ^ 64 - b

/-- The loop over `skip` in `draw_simple` (lines 433-437): the set is walked in ascending
order and the draw is incremented whenever it has reached the skipped value. -/
def skip_remap (skip : List Nat) (draw : Nat) : Nat :=
  skip.foldl (fun draw skip_value => if draw ≥ skip_value then draw + 1 else draw) draw

/-- The `do ... while (temp[draw])` loop of `draw_simple` (lines 431-438), run for at most
`fuel` passes. Reading `temp` outside its bounds is a fault. -/
def draw_simple_retry {G : Type} (R : Random G) (hi : Nat) (skip : List Nat)
    (temp : List Bool) : Nat → G → Option (Nat × G)
  | 0, _ => none
  | fuel + 1, g =>
    let u := R.uniform_int 0 hi g
    let draw := skip_remap skip u.1
    match temp[draw]? with
    | none => none
    | some true => draw_simple_retry R hi skip temp fuel u.2
    | some false => some (draw, u.2)

/-- One pass of the body of the outer loop of `draw_simple` (lines 430-440) on the state
`(result, temp)` and the generator. -/
def draw_simple_step {G : Type} (R : Random G) (hi : Nat) (skip : List Nat) (fuel : Nat)
    (acc : List Nat × List Bool × G) (i : Nat) : Option (List Nat × List Bool × G) :=
  match draw_simple_retry R hi skip acc.2.1 fuel acc.2.2 with
  | none => none
  | some d =>
    if i < acc.1.length then some (acc.1.set i d.1, acc.2.1.set d.1 true, d.2) else none

/-- `RandomSampler::draw_simple(result, max, skip, num_samples)` (lines 418-442); `skip` is
the ascending sequence of the elements of the `std::set`, `fuel` bounds each rejection loop. -/
def draw_simple {G : Type} (R : Random G) (result : List Nat) (max : Nat) (skip : List Nat)
    (num_samples : Nat) (fuel : Nat) (g : G) : Option (List Nat × G) :=
  let result := resize result num_samples
  let temp := List.replicate max false
  let hi := wrap_sub (wrap_sub max 1) skip.length
  ((List.range num_samples).foldlM (draw_simple_step R hi skip fuel) (result, temp, g)).map
    fun r => (r.1, r.2.2)

/-- The effect of `result.erase(result.begin() + i)`; erasing outside the vector is a fault. -/
def erase_at (v : List Nat) (i : Nat) : Option (List Nat) :=
  if i < v.length then some (v.eraseIdx i) else none

/-- The effect of `std::swap(v[i], v[j])`; an index outside the vector is a fault. -/
def swap_at (v : List Nat) (i j : Nat) : Option (List Nat) :=
  match v[i]?, v[j]? with
  | some a, some b => some ((v.set i b).set j a)
  | _, _ => none

/-- One pass of the body of the loop of `draw_fisher_yates` (lines 461-462). -/
def draw_fisher_yates_step {G : Type} (R : Random G) (max : Nat) (skip : List Nat)
    (acc : List Nat × G) (i : Nat) : Option (List Nat × G) :=
  let u := R.uniform_real acc.2
  let j := ⌊(i : ℚ) + u.1 * ((wrap_sub (wrap_sub max skip.length) i : Nat) : ℚ)⌋₊
  (swap_at acc.1 i j).map fun r => (r, u.2)

/-- `RandomSampler::draw_fisher_yates(result, max, skip, num_samples)` (lines 444-466);
`skip` is the ascending sequence of the elements of the `std::set`, erased from the back. -/
def draw_fisher_yates {G : Type} (R : Random G) (result : List Nat) (max : Nat)
    (skip : List Nat) (num_samples : Nat) (g : G) : Option (List Nat × G) :=
  let result := iota (resize result max) 0
  match skip.reverse.foldlM erase_at result with
  | none => none
  | some result =>
    ((List.range num_samples).foldlM (draw_fisher_yates_step R max skip) (result, g)).map
      fun r => (resize r.1 num_samples, r.2)

/-- `RandomSampler::draw(result, max, skip, num_samples)` (lines 407-416). -/
def draw {G : Type} (R : Random G) (result : List Nat) (max : Nat) (skip : List Nat)
    (num_samples : Nat) (fuel : Nat) (g : G) : Option (List Nat × G) :=
  if num_samples < max / 10 then draw_simple R result max skip num_samples fuel g
  else draw_fisher_yates R result max skip num_samples g

/-! ## Sampling by clusters and for confidence-interval groups -/

/-- The sampler's `SamplingOptions`: `get_clusters()` and `get_samples_per_cluster()`. -/
structure SamplingOptions where
  clusters : List (List Nat)
  samples_per_cluster : Nat

/-- `RandomSampler::subsample_with_size(samples, subsample_size, subsamples)` (lines
316-330). The iterator `shuffled_sample.begin() + subsamples.size()` must stay inside the
shuffled vector. -/
def subsample_with_size {G : Type} (R : Random G) (samples : List Nat) (subsample_size : Nat)
    (subsamples : List Nat) (g : G) : Option (List Nat × G) :=
  let sh := R.shuffle samples g
  let shuffled_sample := sh.1
  let subsamples := resize subsamples subsample_size
  if subsamples.length ≤ shuffled_sample.length then
    match copy (shuffled_sample.take subsamples.length) subsamples with
    | none => none
    | some subsamples => some (subsamples, sh.2)
  else none

/-- One pass of the body of the loop of `sample_from_clusters` (lines 340-350). Reading
`samples_by_cluster[cluster]` outside the vector is a fault. -/
def sample_from_clusters_step {G : Type} (R : Random G) (options : SamplingOptions)
    (acc : List Nat × G) (cluster : Nat) : Option (List Nat × G) :=
  match options.clusters[cluster]? with
  | none => none
  | some cluster_samples =>
    if cluster_samples.length ≤ options.samples_per_cluster then
      some (acc.1 ++ cluster_samples, acc.2)
    else
      match subsample_with_size R cluster_samples options.samples_per_cluster [] acc.2 with
      | none => none
      | some r => some (acc.1 ++ r.1, r.2)

/-- `RandomSampler::sample_from_clusters(clusters, samples)` (lines 333-353). -/
def sample_from_clusters {G : Type} (R : Random G) (options : SamplingOptions)
    (clusters : List Nat) (samples : List Nat) (g : G) : Option (List Nat × G) :=
  if options.clusters.isEmpty then some (clusters, g)
  else clusters.foldlM (sample_from_clusters_step R options) (samples, g)

/-- One pass of the body of the loop of `get_samples_in_clusters` (lines 362-365). -/
def get_samples_in_clusters_step (options : SamplingOptions) (samples : List Nat)
    (cluster : Nat) : Option (List Nat) :=
  match options.clusters[cluster]? with
  | none => none
  | some cluster_samples => some (samples ++ cluster_samples)

/-- `RandomSampler::get_samples_in_clusters(clusters, samples)` (lines 357-367). -/
def get_samples_in_clusters (options : SamplingOptions) (clusters : List Nat)
    (samples : List Nat) : Option (List Nat) :=
  if options.clusters.isEmpty then some clusters
  else clusters.foldlM (get_samples_in_clusters_step options) samples

/-- The five-argument `RandomSampler::sample(num_samples, sample_fraction, samples, blocks,
block_group_size)` (lines 67-77); `num_samples_inbag` is computed and not used. -/
def sample_blocks {C : Type} (pow : ℚ → ℚ → ℚ) (rand : C → Nat × C) (num_samples : Nat)
    (sample_fraction : ℚ) (samples : List Nat) (blocks : List (List Nat))
    (block_group_size : Int) (c : C) : Option (List Nat × List (List Nat) × C) :=
  let _num_samples_inbag := ⌊(num_samples : ℚ) * sample_fraction⌋₊
  block_and_split pow rand samples num_samples sample_fraction blocks block_group_size c

/-- The five-argument `RandomSampler::sample_clusters(num_rows, sample_fraction, samples,
blocks, block_group_size)` (lines 43-56). -/
def sample_clusters_blocks {C : Type} (pow : ℚ → ℚ → ℚ) (rand : C → Nat × C)
    (options : SamplingOptions) (num_rows : Nat) (sample_fraction : ℚ) (samples : List Nat)
    (blocks : List (List Nat)) (block_group_size : Int) (c : C) :
    Option (List Nat × List (List Nat) × C) :=
  if options.clusters.isEmpty then
    sample_blocks pow rand num_rows sample_fraction samples blocks block_group_size c
  else
    let num_samples := options.clusters.length
    sample_blocks pow rand num_samples sample_fraction samples blocks block_group_size c

/-- The part of `Data` read by the trainer: `get_num_rows()`, `get_num_cols()` and
`get_disallowed_split_variables()`. -/
structure Data where
  num_rows : Nat
  num_cols : Nat
  disallowed_split_variables : List Nat

/-- `ForestOptions` as read by the trainer. `honesty` is `get_tree_options().get_honesty()`;
the other two values of the tree options read here are in `tree_options`. -/
structure ForestOptions where
  num_trees : Nat
  ci_group_size : Nat
  sample_fraction : ℚ
  tree_options : TreeOptions
  honesty : Bool
  sampling_options : SamplingOptions
  num_threads : Nat
  random_seed : Nat
  if_block : Bool
  nonlapping_block_size : Nat

/-- The two `std::runtime_error` of the feasibility check of `train_trees` (lines 59, 62). -/
inductive ConfigError where
  | sample_fraction_too_small
  | honesty_fraction_too_extreme
  deriving DecidableEq

/-- The ways in which a call of the trainer does not return a value: a configuration error,
an exception of the tree grower, a fault (behaviour the language leaves undefined), or a
`future::get` on a batch that never completes. -/
inductive Failure where
  | config (e : ConfigError)
  | grower
  | fault
  | blocked
  deriving DecidableEq

/-- A `RandomSampler` object: its options and the state of its generator. -/
structure RandomSampler (G : Type) where
  options : SamplingOptions
  random_number_generator : G

/-- What the trainer uses and the sources at hand do not contain. `random`, `rand`, `pow` and
`sort` are as for the sampler. `seed_sampler` is the seeding of the sampler's generator in the
constructor `RandomSampler(seed, options)` (lines 23-27); `seed_batch` and `udist` are the
construction of the `std::mt19937_64` of a batch and a draw of
`nonstd::uniform_int_distribution<uint>` from it; `tree_trainer` is `TreeTrainer::train`,
which works on the sampler by reference and may throw (`none`); `split_sequence` is the helper
of `commons/utility.h`. -/
structure Environment (Tree G C S : Type) where
  random : Random G
  rand : C → Nat × C
  pow : ℚ → ℚ → ℚ
  sort : List (List Nat) → List (List Nat)
  seed_sampler : Nat → G
  seed_batch : Nat → S
  udist : S → Nat × S
  tree_trainer : Data → RandomSampler G → C → List Nat → TreeOptions → List (List Nat) →
    Option (Tree × G × C)
  split_sequence : Nat → Nat → Nat → List Nat

/-- Modelled from the spec: `split_sequence(result, start, end, num_parts)` of
`commons/utility.h` is not among the sources. The specification says that the trainer
"partitions `[0, num_groups)` into up to `num_threads` contiguous ranges" with this call,
passing `num_groups - 1` as the upper bound: the result lists the boundaries of the ranges,
from `start` to `end + 1`, none before the previous one, at most `num_parts` ranges. -/
def SplitsIntoRanges (split_sequence : Nat → Nat → Nat → List Nat) : Prop :=
  ∀ start stop num_parts : Nat, start ≤ stop → 1 ≤ num_parts →
    (split_sequence start stop num_parts).head? = some start
    ∧ (split_sequence start stop num_parts).getLast? = some (stop + 1)
    ∧ (split_sequence start stop num_parts).Pairwise (· ≤ ·)
    ∧ (split_sequence start stop num_parts).length ≤ num_parts + 1

/-- The value of `static_cast<int>(n)` for a `size_t` value `n`. -/
def to_int (n : Nat) : Int :=
  if n % 2 ^ 32 < 2 ^ 31 then ((n % 2 ^ 32 : Nat) : Int) else ((n % 2 ^ 32 : Nat) : Int) - 2 ^ 32

/-- The difference `a - b` of two `uint` values (below `2 ^ 32`), which wraps around. -/
def wrap_sub32 (a b : Nat) : Nat := if b ≤ a then a - b else a + 2 ^ 32 - b

/-- `ForestTrainer::train_tree(data, sampler, options, block_group_size)` (lines 144-157);
`c` is the state of `rand()`. The result carries the states the call leaves behind. -/
def train_tree {Tree G C S : Type} (E : Environment Tree G C S) (data : Data)
    (sampler : RandomSampler G) (c : C) (options : ForestOptions) (block_group_size : Int) :
    Except Failure (Tree × G × C) :=
  let clusters : List Nat := []
  let blocks_clusters : List (List Nat) := []
  match sample_clusters_blocks E.pow E.rand sampler.options data.num_rows
      options.sample_fraction clusters blocks_clusters block_group_size c with
  | none => .error .fault
  | some r =>
    match E.tree_trainer data sampler r.2.2 r.1 options.tree_options r.2.1 with
    | none => .error .grower
    | some t => .ok t

/-- One pass of the body of the loop of `train_batch` (lines 132-138) on the state of the
batch generator, `trees` and `rand()`. -/
def train_batch_step {Tree G C S : Type} (E : Environment Tree G C S) (data : Data)
    (options : ForestOptions) (block_group_size : Int) (acc : S × List Tree × C) (_i : Nat) :
    Except Failure (S × List Tree × C) :=
  let u := E.udist acc.1
  let tree_seed := u.1
  let sampler : RandomSampler G := ⟨options.sampling_options, E.seed_sampler tree_seed⟩
  match train_tree E data sampler acc.2.2 options block_group_size with
  | .error e => .error e
  | .ok t => .ok (u.2, acc.2.1 ++ [t.1], t.2.2)

/-- The value of `block_group_size` in `train_batch` (lines 112-118). -/
def batch_block_group_size (options : ForestOptions) : Int :=
  if options.if_block then to_int options.nonlapping_block_size
  else to_int options.ci_group_size

/-- `ForestTrainer::train_batch(start, num_trees, data, options)` (lines 100-141); `c` is
the state of `rand()` that the batch meets. The seed `get_random_seed() + start` is a
`size_t` sum. -/
def train_batch {Tree G C S : Type} (E : Environment Tree G C S) (start num_trees : Nat)
    (data : Data) (options : ForestOptions) (c : C) : Except Failure (List Tree × C) :=
  let block_group_size := batch_block_group_size options
  let random_number_generator := E.seed_batch ((options.random_seed + start) % 2 ^ 64)
  let trees : List Tree := []
  match (List.range num_trees).foldlM (train_batch_step E data options block_group_size)
      (random_number_generator, trees, c) with
  | .error e => .error e
  | .ok r => .ok (r.2.1, r.2.2)

/-- The task given to `std::async` in the `i`-th pass of the dispatch loop of `train_trees`
(lines 78-87). The batches run side by side and share `rand()`; which state of it a batch
meets is not fixed by the program, so `crand i` is an input. -/
def batch_task {Tree G C S : Type} (E : Environment Tree G C S) (data : Data)
    (options : ForestOptions) (thread_ranges : List Nat) (crand : Nat → C) (i : Nat) :
    Except Failure (List Tree) :=
  let start_index := thread_ranges.getD i 0
  let num_trees_batch := wrap_sub (thread_ranges.getD (i + 1) 0) start_index
  match train_batch E start_index num_trees_batch data options (crand i) with
  | .error e => .error e
  | .ok r => .ok r.1

/-- The futures after all tasks have run: `completion` lists the tasks in the order in which
they complete, and a task that completes puts its result in its own future. -/
def completed_futures {α : Type} (tasks : List α) (completion : List Nat) : List (Option α) :=
  completion.foldl (fun futures i => futures.set i tasks[i]?) (List.replicate tasks.length none)

/-- One pass of the body of the collection loop of `train_trees` (lines 91-94):
`future.get()` returns the result of the batch or rethrows its exception, and waits for ever
on a batch that never completes. -/
def collect_step {Tree : Type} (trees : List Tree)
    (future : Option (Except Failure (List Tree))) : Except Failure (List Tree) :=
  match future with
  | none => .error .blocked
  | some (.error e) => .error e
  | some (.ok thread_trees) => .ok (trees ++ thread_trees)

/-- `ForestTrainer::train_trees(data, options)` (lines 47-98). The products of the
feasibility test are products of doubles: `(size_t) num_samples * sample_fraction` converts
the size and rounds the product, and each further factor rounds again. The division by a zero
`ci_group_size` and the dispatch loop over an empty `thread_ranges` (where
`thread_ranges.size() - 1` wraps around) are faults. -/
def train_trees {Tree G C S : Type} (E : Environment Tree G C S) (data : Data)
    (options : ForestOptions) (crand : Nat → C) (completion : List Nat) :
    Except Failure (List Tree) :=
  let num_samples := data.num_rows
  let num_trees := options.num_trees
  let tree_options := options.tree_options
  let honesty := options.honesty
  let honesty_fraction := tree_options.honesty_fraction
  let product := Double.mul (Double.of_exact num_samples) (.finite options.sample_fraction)
  if product.lt_one = true then
    .error (.config .sample_fraction_too_small)
  else if honesty = true
      ∧ ((Double.mul product (.finite honesty_fraction)).lt_one = true
        ∨ (Double.mul product (Double.of_exact (1 - honesty_fraction))).lt_one = true) then
    .error (.config .honesty_fraction_too_extreme)
  else if options.ci_group_size = 0 then .error .fault
  else
    let num_groups := (num_trees / options.ci_group_size) % 2 ^ 32
    let thread_ranges := E.split_sequence 0 (wrap_sub32 num_groups 1) options.num_threads
    if thread_ranges.length = 0 then .error .fault
    else
      let tasks := (List.range (thread_ranges.length - 1)).map
        (batch_task E data options thread_ranges crand)
      let futures := completed_futures tasks completion
      let trees : List Tree := []
      futures.foldlM collect_step trees

/-- The `Forest` built by the constructor `Forest(trees, num_variables, ci_group_size)`. -/
structure Forest (Tree : Type) where
  trees : List Tree
  num_variables : Nat
  ci_group_size : Nat

/-- `ForestTrainer::train(data, options)` (lines 38-45). -/
def train {Tree G C S : Type} (E : Environment Tree G C S) (data : Data)
    (options : ForestOptions) (crand : Nat → C) (completion : List Nat) :
    Except Failure (Forest Tree) :=
  match train_trees E data options crand completion with
  | .error e => .error e
  | .ok trees =>
    let num_variables := wrap_sub data.num_cols data.disallowed_split_variables.length
    let ci_group_size := options.ci_group_size
    .ok ⟨trees, num_variables, ci_group_size⟩

/-! ## Vocabulary of the statements -/

/-- The elements of `block` at the positions satisfying `p`, in increasing order of position. -/
def at_positions (block : List Nat) (p : Nat → Bool) : List Nat :=
  ((List.range block.length).filter p).map fun i => block.getD i 0

/-- The positions that policy 1 sends to `subsamples`, for a block of `total_samples`
elements and a needed size `subsample_size` (the conditions of lines 218-246). -/
def sub1_selects (total_samples subsample_size : Nat) (idx : Nat) : Bool :=
  if subsample_size ≤ total_samples / 2 then
    decide (idx < 2 * subsample_size ∧ idx % 2 = 0)
  else
    decide (idx < subsample_size - total_samples / 2
      ∨ (idx - (subsample_size - total_samples / 2)) % 2 = 0)

/-- The first `n` draws of `udist` from the state `s` of a batch generator. -/
def batch_seeds {S : Type} (udist : S → Nat × S) : Nat → S → List Nat
  | 0, _ => []
  | n + 1, s => (udist s).1 :: batch_seeds udist n (udist s).2

/-- The trees of `train_tree`, one after the other, for the samplers seeded with the listed
seeds; `trees` are the trees before and `c` is the state of `rand()`. -/
def train_with_seeds {Tree G C S : Type} (E : Environment Tree G C S) (data : Data)
    (options : ForestOptions) (block_group_size : Int) :
    List Nat → List Tree → C → Except Failure (List Tree × C)
  | [], trees, c => .ok (trees, c)
  | seed :: seeds, trees, c =>
    match train_tree E data ⟨options.sampling_options, E.seed_sampler seed⟩ c options
        block_group_size with
    | .error e => .error e
    | .ok t => train_with_seeds E data options block_group_size seeds (trees ++ [t.1]) t.2.2

/-- The tree grower never throws. -/
def Environment.GrowerNeverFails {Tree G C S : Type} (E : Environment Tree G C S) : Prop :=
  ∀ (data : Data) (sampler : RandomSampler G) (c : C) (rows : List Nat)
    (tree_options : TreeOptions) (blocks : List (List Nat)),
    ∃ t, E.tree_trainer data sampler c rows tree_options blocks = some t

/-- The value of `thread_ranges` in `train_trees` (lines 66-69). -/
def thread_ranges_of {Tree G C S : Type} (E : Environment Tree G C S)
    (options : ForestOptions) : List Nat :=
  E.split_sequence 0
    (wrap_sub32 ((options.num_trees / options.ci_group_size) % 2 ^ 32) 1) options.num_threads

/-- The product `(size_t) num_samples * sample_fraction` of the feasibility test of
`train_trees` (line 58), a double. -/
def sample_product (data : Data) (options : ForestOptions) : Double :=
  Double.mul (Double.of_exact data.num_rows) (.finite options.sample_fraction)

/-- The feasibility that `train_trees` checks before any other work (lines 58-63): none of
the three comparisons of a double product with 1 holds, the two with the honesty fraction
being made only when honesty is enabled. -/
def Feasible (data : Data) (options : ForestOptions) : Prop :=
  (sample_product data options).lt_one = false
    ∧ (options.honesty = true →
        (Double.mul (sample_product data options)
            (.finite options.tree_options.honesty_fraction)).lt_one = false
        ∧ (Double.mul (sample_product data options)
            (Double.of_exact (1 - options.tree_options.honesty_fraction))).lt_one = false)

/-- The finite doubles: `m * 2 ^ e` with a significand `m` of at most 53 bits and an exponent
in the range of the binary64 format. -/
def IsDouble (d : ℚ) : Prop :=
  ∃ m e : Int, |m| < 2 ^ 53 ∧ -1074 ≤ e ∧ e ≤ 971 ∧ d = (m : ℚ) * 2 ^ e

/-- The accuracy of the C library's `std::pow`, which is not among the sources: the result
for a positive base and the exponent `p / q` is never on the other side of a double than the
true power (`d ≤ x ^ (p / q)` is `d ^ q ≤ x ^ p`). A `pow` whose error stays below one unit
in the last place, as the usual C libraries document, is of this kind. -/
def PowFaithful (pow : ℚ → ℚ → ℚ) : Prop :=
  ∀ (x d : ℚ) (p q : Nat), 0 < x → 0 ≤ d → 0 < q → IsDouble d →
    (d ^ q ≤ x ^ p → d ≤ pow x ((p : ℚ) / (q : ℚ)))
      ∧ (x ^ p ≤ d ^ q → pow x ((p : ℚ) / (q : ℚ)) ≤ d)

/-! ## An example generator

A generator for concrete runs: its state is a tape of raw values, each read once, and an
exhausted tape reads zero. -/

/-- A shuffle driven by the tape: the next raw value selects which of the remaining elements
comes next. -/
def tape_shuffle {α : Type} : Nat → List α → List Nat → List α × List Nat
  | 0, l, g => (l, g)
  | _ + 1, [], g => ([], g)
  | n + 1, x :: xs, g =>
    let i := g.headD 0 % (xs.length + 1)
    let r := tape_shuffle n ((x :: xs).eraseIdx i) g.tail
    ((x :: xs).getD i x :: r.1, r.2)

/-- The tape seen as a generator with its three distributions. -/
def tape_random : Random (List Nat) where
  shuffle := fun l g => tape_shuffle l.length l g
  uniform_int := fun a b g => (a + g.headD 0 % (b - a + 1), g.tail)
  uniform_real := fun g => (((g.headD 0 % 1024 : Nat) : ℚ) / 1024, g.tail)

/-- The tape seen as the C library `rand()`. -/
def tape_rand (c : List Nat) : Nat × List Nat := (c.headD 0, c.tail)

/-- The finite doubles as a finite set. -/
@[irreducible] def doubles : Finset ℚ :=
  (Finset.Icc (-(2 ^ 53 - 1) : Int) (2 ^ 53 - 1) ×ˢ Finset.Icc (-1074 : Int) 971).image
    fun me => (me.1 : ℚ) * 2 ^ me.2

/-- An example of `std::pow` for a positive base and a non-negative exponent: the true power
rounded down, that is the largest double `d ≥ 0` with `d ^ den ≤ x ^ num` for the exponent
`num / den`. -/
def example_pow (x y : ℚ) : ℚ :=
  if h : (doubles.filter fun d => 0 ≤ d ∧ d ^ y.den ≤ x ^ y.num.toNat).Nonempty then
    (doubles.filter fun d => 0 ≤ d ∧ d ^ y.den ≤ x ^ y.num.toNat).max' h
  else 0

/-- An example of what `std::sort` may do with the comparison by `front()`: an insertion
sort. -/
def example_sort (v : List (List Nat)) : List (List Nat) :=
  v.insertionSort (fun a b => a.headD 0 ≤ b.headD 0)

/-- Modelled from the spec: an example of `split_sequence`, which is not among the sources.
It cuts the range from `start` to `stop` into `min(num_parts, length)` contiguous ranges of
nearly equal length and returns their boundaries. -/
def example_split_sequence (start stop num_parts : Nat) : List Nat :=
  let length := stop - start + 1
  let parts := min num_parts length
  (List.range (parts + 1)).map fun i => start + i * length / parts

/-- An example environment: the tape generators, the power rounded down, the insertion sort,
a counter as batch generator, and a tree grower that never fails and returns as its tree the rows and the blocks
it was given. -/
def example_environment :
    Environment (List Nat × List (List Nat)) (List Nat) (List Nat) Nat where
  random := tape_random
  rand := tape_rand
  pow := example_pow
  sort := example_sort
  seed_sampler := fun seed => [seed, seed + 1, seed + 2]
  seed_batch := fun seed => seed
  udist := fun s => (s % 2 ^ 32, s + 1)
  tree_trainer := fun _ sampler c rows _ blocks =>
    some ((rows, blocks), sampler.random_number_generator, c)
  split_sequence := example_split_sequence

/-- An example data set: 100 rows, 3 columns, every column allowed for splits. -/
def example_data : Data := ⟨100, 3, []⟩

/-- An example configuration: 10 trees in confidence-interval groups of 2, sample fraction
`1/2`, no honesty, no clusters, 2 threads, seed 7, no block option. -/
def example_options : ForestOptions :=
  ⟨10, 2, 1 / 2, ⟨1 / 2, 0⟩, false, ⟨[], 0⟩, 2, 7, false, 0⟩

/-! ## Theorems -/

theorem round_half_even_floor_le (q : ℚ) : ⌊q⌋ ≤ round_half_even q := by
  unfold round_half_even
  split_ifs <;> omega

theorem round_half_even_le_floor_succ (q : ℚ) : round_half_even q ≤ ⌊q⌋ + 1 := by
  unfold round_half_even
  split_ifs <;> omega

theorem round_half_even_intCast (m : Int) : round_half_even (m : ℚ) = m := by
  unfold round_half_even
  simp

theorem le_round_half_even (q : ℚ) (k : Int) (h : (k : ℚ) ≤ q) : k ≤ round_half_even q :=
  le_trans (Int.le_floor.mpr h) (round_half_even_floor_le q)

theorem round_half_even_le (q : ℚ) (k : Int) (h : q ≤ (k : ℚ)) : round_half_even q ≤ k := by
  rcases eq_or_lt_of_le h with heq | hlt
  · rw [heq, round_half_even_intCast]
  · have : ⌊q⌋ < k := Int.floor_lt.mpr hlt
    have := round_half_even_le_floor_succ q
    omega

theorem round_half_even_eq_of_lt (q : ℚ) (m : Int) (h1 : (m : ℚ) - 1 / 2 < q)
    (h2 : q < (m : ℚ) + 1 / 2) : round_half_even q = m := by
  unfold round_half_even
  by_cases hm : (m : ℚ) ≤ q
  · have hf : ⌊q⌋ = m := Int.floor_eq_iff.mpr ⟨hm, by linarith⟩
    rw [hf, if_pos (by linarith)]
  · have hf : ⌊q⌋ = m - 1 := Int.floor_eq_iff.mpr ⟨by push_cast; linarith, by push_cast; linarith⟩
    rw [hf]
    push_cast
    rw [if_neg (by linarith), if_pos (by linarith)]
    ring

theorem round_half_even_tie_up (q : ℚ) (m : Int) (hq : q = (m : ℚ) - 1 / 2)
    (heven : m % 2 = 0) : round_half_even q = m := by
  unfold round_half_even
  have hf : ⌊q⌋ = m - 1 := Int.floor_eq_iff.mpr ⟨by push_cast; linarith, by push_cast; linarith⟩
  rw [hf]
  push_cast
  rw [if_neg (by linarith), if_neg (by linarith), if_neg (by omega)]
  ring

theorem binade_eq (q : ℚ) (e : Int) (h1 : (2 : ℚ) ^ e ≤ |q|) (h2 : |q| < (2 : ℚ) ^ (e + 1))
    (he : -1022 ≤ e) : binade q = e := by
  have hpos : 0 < |q| := lt_of_lt_of_le (by positivity) h1
  have ha : e ≤ Int.log 2 |q| := by
    rw [← Int.zpow_le_iff_le_log (by norm_num) hpos]
    simpa using h1
  have hb : Int.log 2 |q| < e + 1 := by
    rw [← Int.lt_zpow_iff_log_lt (by norm_num) hpos]
    simpa using h2
  unfold binade
  omega

theorem binade_eq_of_pos (q : ℚ) (e : Int) (h1 : (2 : ℚ) ^ e ≤ q) (h2 : q < (2 : ℚ) ^ (e + 1))
    (he : -1022 ≤ e) : binade q = e := by
  have hpos : 0 < q := lt_of_lt_of_le (by positivity) h1
  rw [← abs_of_pos hpos] at h1 h2
  exact binade_eq q e h1 h2 he

theorem round_double_eq (q : ℚ) (e : Int) (h1 : (2 : ℚ) ^ e ≤ q)
    (h2 : q < (2 : ℚ) ^ (e + 1)) (he : -1022 ≤ e) :
    round_double q = (round_half_even (q / 2 ^ (e - 52)) : ℚ) * 2 ^ (e - 52) := by
  unfold round_double
  rw [binade_eq_of_pos q e h1 h2 he]

theorem round_double_zero : round_double 0 = 0 := by
  simp [round_double, round_half_even]

theorem round_double_one : round_double 1 = 1 := by
  rw [round_double_eq 1 0 (by norm_num) (by norm_num) (by norm_num)]
  have : (1 : ℚ) / 2 ^ ((0 : Int) - 52) = ((4503599627370496 : Int) : ℚ) := by norm_num
  rw [this, round_half_even_intCast]
  norm_num

theorem zpow_two_pos (k : Int) : (0 : ℚ) < 2 ^ k := by positivity

theorem zpow_two_eq_intCast (k : Int) (hk : 0 ≤ k) :
    (2 : ℚ) ^ k = (((2 : Int) ^ k.toNat : Int) : ℚ) := by
  have h : k = (k.toNat : Int) := (Int.toNat_of_nonneg hk).symm
  conv_lhs => rw [h]
  rw [zpow_natCast]
  push_cast
  rfl

theorem round_double_of_exact (q : ℚ) (m : Int)
    (h : q / 2 ^ (binade q - 52) = (m : ℚ)) : round_double q = q := by
  unfold round_double
  rw [h, round_half_even_intCast, ← h]
  exact div_mul_cancel₀ q (ne_of_gt (zpow_two_pos _))

theorem round_double_le_zpow (q : ℚ) (k : Int) (hk : binade q - 52 ≤ k)
    (hqk : q ≤ (2 : ℚ) ^ k) : round_double q ≤ (2 : ℚ) ^ k := by
  unfold round_double
  have hu := zpow_two_pos (binade q - 52)
  have hquot : (2 : ℚ) ^ k / 2 ^ (binade q - 52) = (2 : ℚ) ^ (k - (binade q - 52)) := by
    exact (zpow_sub₀ (by norm_num) k (binade q - 52)).symm
  have hle : q / 2 ^ (binade q - 52) ≤ (((2 : Int) ^ (k - (binade q - 52)).toNat : Int) : ℚ) := by
    rw [← zpow_two_eq_intCast _ (by omega), ← hquot]
    exact div_le_div_of_nonneg_right hqk hu.le
  have hr := round_half_even_le _ _ hle
  have hr2 : (round_half_even (q / 2 ^ (binade q - 52)) : ℚ)
      ≤ (((2 : Int) ^ (k - (binade q - 52)).toNat : Int) : ℚ) := by exact_mod_cast hr
  rw [← zpow_two_eq_intCast _ (by omega), ← hquot] at hr2
  calc (round_half_even (q / 2 ^ (binade q - 52)) : ℚ) * 2 ^ (binade q - 52)
      ≤ (2 : ℚ) ^ k / 2 ^ (binade q - 52) * 2 ^ (binade q - 52) :=
        mul_le_mul_of_nonneg_right hr2 hu.le
    _ = (2 : ℚ) ^ k := div_mul_cancel₀ _ (ne_of_gt hu)

theorem zpow_le_round_double (q : ℚ) (k : Int) (hk : binade q - 52 ≤ k)
    (hqk : (2 : ℚ) ^ k ≤ q) : (2 : ℚ) ^ k ≤ round_double q := by
  unfold round_double
  have hu := zpow_two_pos (binade q - 52)
  have hquot : (2 : ℚ) ^ k / 2 ^ (binade q - 52) = (2 : ℚ) ^ (k - (binade q - 52)) := by
    exact (zpow_sub₀ (by norm_num) k (binade q - 52)).symm
  have hle : (((2 : Int) ^ (k - (binade q - 52)).toNat : Int) : ℚ) ≤ q / 2 ^ (binade q - 52) := by
    rw [← zpow_two_eq_intCast _ (by omega), ← hquot]
    exact div_le_div_of_nonneg_right hqk hu.le
  have hr := le_round_half_even _ _ hle
  have hr2 : (((2 : Int) ^ (k - (binade q - 52)).toNat : Int) : ℚ)
      ≤ (round_half_even (q / 2 ^ (binade q - 52)) : ℚ) := by exact_mod_cast hr
  rw [← zpow_two_eq_intCast _ (by omega), ← hquot] at hr2
  calc (2 : ℚ) ^ k = (2 : ℚ) ^ k / 2 ^ (binade q - 52) * 2 ^ (binade q - 52) :=
        (div_mul_cancel₀ _ (ne_of_gt hu)).symm
    _ ≤ (round_half_even (q / 2 ^ (binade q - 52)) : ℚ) * 2 ^ (binade q - 52) :=
        mul_le_mul_of_nonneg_right hr2 hu.le

theorem round_double_nonneg (q : ℚ) (h : 0 ≤ q) : 0 ≤ round_double q := by
  unfold round_double
  have hu := zpow_two_pos (binade q - 52)
  have h0 : ((0 : Int) : ℚ) ≤ q / 2 ^ (binade q - 52) := by
    simpa using div_nonneg h hu.le
  have hr := le_round_half_even _ _ h0
  have hr2 : (0 : ℚ) ≤ (round_half_even (q / 2 ^ (binade q - 52)) : ℚ) := by exact_mod_cast hr
  exact mul_nonneg hr2 hu.le

theorem binade_nonpos (q : ℚ) (h1 : |q| ≤ 1) : binade q ≤ 0 := by
  unfold binade
  rcases eq_or_lt_of_le (abs_nonneg q) with h0 | hpos
  · rw [← h0]
    simp [Int.log]
  · have hlt : Int.log 2 |q| < 1 := by
      rw [← Int.lt_zpow_iff_log_lt (by norm_num) hpos]
      norm_num
      linarith
    omega

theorem binade_of_one_le (q : ℚ) (h1 : 1 ≤ q) :
    0 ≤ binade q ∧ (2 : ℚ) ^ binade q ≤ q := by
  have hq : |q| = q := abs_of_nonneg (by linarith)
  have hpos : (0 : ℚ) < q := by linarith
  have h0 : 0 ≤ Int.log 2 q := by
    rw [← Int.zpow_le_iff_le_log (by norm_num) hpos]
    simpa using h1
  have hb : binade q = Int.log 2 q := by
    unfold binade
    rw [hq]
    omega
  rw [hb]
  refine ⟨h0, ?_⟩
  have := Int.zpow_log_le_self (b := 2) (by norm_num) hpos
  simpa using this

theorem round_double_le_one (q : ℚ) (h0 : 0 ≤ q) (h1 : q ≤ 1) : round_double q ≤ 1 := by
  have hb := binade_nonpos q (by rw [abs_of_nonneg h0]; exact h1)
  have := round_double_le_zpow q 0 (by omega) (by simpa using h1)
  simpa using this

theorem round_double_le_half (q : ℚ) (h0 : 0 ≤ q) (h1 : q ≤ 1 / 2) :
    round_double q ≤ 1 / 2 := by
  have hb := binade_nonpos q (by rw [abs_of_nonneg h0]; linarith)
  have := round_double_le_zpow q (-1) (by omega) (by norm_num; linarith)
  norm_num at this
  linarith

theorem one_le_round_double (q : ℚ) (h1 : 1 ≤ q) : 1 ≤ round_double q := by
  obtain ⟨hb0, hb⟩ := binade_of_one_le q h1
  have h := zpow_le_round_double q (binade q) (by omega) hb
  have h2 : (1 : ℚ) ≤ 2 ^ binade q := by
    have := zpow_le_zpow_right₀ (show (1 : ℚ) ≤ 2 by norm_num) hb0
    simpa using this
  linarith

theorem binade_lt_of_lt_zpow (q : ℚ) (k : Int) (hk : 0 < k) (h : |q| < (2 : ℚ) ^ k) :
    binade q < k := by
  unfold binade
  rcases eq_or_lt_of_le (abs_nonneg q) with h0 | hpos
  · rw [← h0]
    simp [Int.log]
    omega
  · have hlt : Int.log 2 |q| < k := by
      rw [← Int.lt_zpow_iff_log_lt (by norm_num) hpos]
      simpa using h
    omega

theorem round_double_natCast (n : Nat) (hn : n < 2 ^ 53) : round_double (n : ℚ) = n := by
  have habs : |(n : ℚ)| = n := abs_of_nonneg (Nat.cast_nonneg n)
  have hb : binade (n : ℚ) < 53 := by
    apply binade_lt_of_lt_zpow _ _ (by norm_num)
    rw [habs]
    exact_mod_cast hn
  apply round_double_of_exact _ ((n : Int) * (2 : Int) ^ (52 - binade (n : ℚ)).toNat)
  push_cast
  rw [← zpow_natCast, Int.toNat_of_nonneg (by omega), div_eq_mul_inv, ← zpow_neg]
  congr 2
  ring

theorem round_double_half : round_double (1 / 2) = 1 / 2 := by
  apply round_double_of_exact _ 4503599627370496
  rw [binade_eq_of_pos (1 / 2) (-1) (by norm_num) (by norm_num) (by norm_num)]
  norm_num

theorem round_double_third : round_double (1 / 3) = 6004799503160661 / 2 ^ 54 := by
  rw [round_double_eq (1 / 3) (-2) (by norm_num) (by norm_num)
    (by norm_num)]
  rw [round_half_even_eq_of_lt _ 6004799503160661 (by norm_num) (by norm_num)]
  norm_num

theorem round_double_three_thirds :
    round_double (3 * (6004799503160661 / 2 ^ 54)) = 1 := by
  rw [round_double_eq _ (-1) (by norm_num) (by norm_num)
    (by norm_num)]
  rw [round_half_even_tie_up _ 9007199254740992 (by norm_num) (by decide)]
  norm_num

theorem mem_doubles_iff (d : ℚ) : d ∈ doubles ↔ IsDouble d := by
  unfold doubles IsDouble
  simp only [Finset.mem_image, Finset.mem_product, Finset.mem_Icc, Prod.exists]
  constructor
  · rintro ⟨m, e, ⟨⟨h1, h2⟩, h3, h4⟩, rfl⟩
    exact ⟨m, e, by rw [abs_lt]; omega, h3, h4, rfl⟩
  · rintro ⟨m, e, h1, h2, h3, rfl⟩
    rw [abs_lt] at h1
    exact ⟨m, e, ⟨⟨by omega, by omega⟩, h2, h3⟩, rfl⟩

theorem isDouble_natCast (n : Nat) (hn : n < 2 ^ 53) : IsDouble (n : ℚ) :=
  ⟨n, 0, by rw [abs_lt]; omega, by norm_num, by norm_num, by simp⟩

theorem rat_num_den_of_div (p q : Nat) (hq : 0 < q) :
    ((p : ℚ) / (q : ℚ)).num.toNat * q = p * ((p : ℚ) / (q : ℚ)).den := by
  have hq0 : (q : ℚ) ≠ 0 := by exact_mod_cast hq.ne'
  have hnn : (0 : ℚ) ≤ (p : ℚ) / (q : ℚ) := by positivity
  have hnum : 0 ≤ ((p : ℚ) / (q : ℚ)).num := Rat.num_nonneg.mpr hnn
  have h := Rat.num_div_den ((p : ℚ) / (q : ℚ))
  have hden : (((p : ℚ) / (q : ℚ)).den : ℚ) ≠ 0 := by
    exact_mod_cast ((p : ℚ) / (q : ℚ)).den_pos.ne'
  have hcast : ((((p : ℚ) / (q : ℚ)).num.toNat : Nat) : ℚ) = (((p : ℚ) / (q : ℚ)).num : ℚ) := by
    have := Int.toNat_of_nonneg hnum
    exact_mod_cast congrArg (fun z : Int => (z : ℚ)) this
  have key : ((((p : ℚ) / (q : ℚ)).num.toNat : Nat) : ℚ) * (q : ℚ)
      = (p : ℚ) * (((p : ℚ) / (q : ℚ)).den : ℚ) := by
    rw [hcast]
    field_simp at h
    linarith
  exact_mod_cast key

theorem pow_le_pow_scale (a b : ℚ) (ha : 0 ≤ a) (hb : 0 ≤ b) (N D p q : Nat) (hD : 0 < D)
    (hq : 0 < q) (h : N * q = p * D) : a ^ D ≤ b ^ N ↔ a ^ q ≤ b ^ p := by
  have h1 : a ^ D ≤ b ^ N ↔ (a ^ D) ^ q ≤ (b ^ N) ^ q :=
    (pow_le_pow_iff_left₀ (pow_nonneg ha D) (pow_nonneg hb N) hq.ne').symm
  have h2 : a ^ q ≤ b ^ p ↔ (a ^ q) ^ D ≤ (b ^ p) ^ D :=
    (pow_le_pow_iff_left₀ (pow_nonneg ha q) (pow_nonneg hb p) hD.ne').symm
  rw [h1, h2, ← pow_mul, ← pow_mul, ← pow_mul, ← pow_mul, h, Nat.mul_comm D q]

theorem example_pow_faithful : PowFaithful example_pow := by
  intro x d p q hx hd hq hdbl
  have hscale : ∀ a : ℚ, 0 ≤ a →
      (a ^ ((p : ℚ) / (q : ℚ)).den ≤ x ^ ((p : ℚ) / (q : ℚ)).num.toNat ↔ a ^ q ≤ x ^ p) :=
    fun a ha => pow_le_pow_scale a x ha hx.le _ _ p q (Rat.den_pos _) hq
      (rat_num_den_of_div p q hq)
  constructor
  · intro hle
    have hmem : d ∈ doubles.filter fun d => 0 ≤ d
        ∧ d ^ ((p : ℚ) / (q : ℚ)).den ≤ x ^ ((p : ℚ) / (q : ℚ)).num.toNat := by
      rw [Finset.mem_filter]
      exact ⟨(mem_doubles_iff d).mpr hdbl, hd, (hscale d hd).mpr hle⟩
    unfold example_pow
    rw [dif_pos ⟨d, hmem⟩]
    exact Finset.le_max' _ d hmem
  · intro hle
    unfold example_pow
    split
    · rename_i hne
      have hmax := Finset.max'_mem _ hne
      rw [Finset.mem_filter] at hmax
      obtain ⟨_, hm0, hm⟩ := hmax
      have h1 := (hscale _ hm0).mp hm
      exact (pow_le_pow_iff_left₀ hm0 hd hq.ne').mp (le_trans h1 hle)
    · exact hd

theorem isDouble_one : IsDouble 1 := by
  simpa using isDouble_natCast 1 (by norm_num)

theorem rat_eq_num_div_den (y : ℚ) (hy : 0 ≤ y) :
    y = ((y.num.toNat : Nat) : ℚ) / ((y.den : Nat) : ℚ) := by
  have hnum : 0 ≤ y.num := Rat.num_nonneg.mpr hy
  have hcast : ((y.num.toNat : Nat) : ℚ) = (y.num : ℚ) := by
    have := Int.toNat_of_nonneg hnum
    exact_mod_cast congrArg (fun z : Int => (z : ℚ)) this
  rw [hcast]
  exact (Rat.num_div_den y).symm

theorem pow_faithful_one_le (pow : ℚ → ℚ → ℚ) (hpow : PowFaithful pow) (x y : ℚ)
    (hx : 1 ≤ x) (hy : 0 ≤ y) : 1 ≤ pow x y := by
  have h := (hpow x 1 y.num.toNat y.den (by linarith) (by norm_num) y.den_pos isDouble_one).1
  rw [← rat_eq_num_div_den y hy] at h
  apply h
  rw [one_pow]
  exact one_le_pow₀ hx

theorem pow_faithful_le_self (pow : ℚ → ℚ → ℚ) (hpow : PowFaithful pow) (x y : ℚ)
    (hdbl : IsDouble x) (hx : 1 ≤ x) (hy : 0 ≤ y) (hy1 : y ≤ 1) : pow x y ≤ x := by
  have h := (hpow x x y.num.toNat y.den (by linarith) (by linarith) y.den_pos hdbl).2
  have hrep := rat_eq_num_div_den y hy
  rw [← hrep] at h
  apply h
  apply pow_le_pow_right₀ hx
  have hden : (0 : ℚ) < ((y.den : Nat) : ℚ) := by exact_mod_cast y.den_pos
  have : ((y.num.toNat : Nat) : ℚ) ≤ ((y.den : Nat) : ℚ) := by
    rw [hrep, div_le_one hden] at hy1
    exact hy1
  exact_mod_cast this

theorem pow_faithful_exp_one (pow : ℚ → ℚ → ℚ) (hpow : PowFaithful pow) (x : ℚ)
    (hdbl : IsDouble x) (hx : 0 < x) : pow x 1 = x := by
  have h := hpow x x 1 1 hx hx.le (by norm_num) hdbl
  simp only [Nat.cast_one, div_one, pow_one, le_refl, true_implies] at h
  exact le_antisymm h.2 h.1

theorem pow_faithful_sqrt_le (pow : ℚ → ℚ → ℚ) (hpow : PowFaithful pow) (n b : Nat)
    (hn : 1 ≤ n) (hb : b < 2 ^ 53) (h : n ≤ b ^ 2) : pow (n : ℚ) (1 / 2) ≤ (b : ℚ) := by
  have hx : (0 : ℚ) < (n : ℚ) := by exact_mod_cast hn
  have h2 := (hpow n b 1 2 hx (Nat.cast_nonneg b) (by norm_num) (isDouble_natCast b hb)).2
  simp only [Nat.cast_one, Nat.cast_ofNat, pow_one] at h2
  apply h2
  exact_mod_cast h

theorem pow_faithful_lt_sqrt (pow : ℚ → ℚ → ℚ) (hpow : PowFaithful pow) (n b : Nat)
    (hn52 : n < 2 ^ 52) (h : b ^ 2 < n) : (b : ℚ) < pow (n : ℚ) (1 / 2) := by
  have hx : (0 : ℚ) < (n : ℚ) := by
    have : 0 < n := by omega
    exact_mod_cast this
  have hb : b < 2 ^ 26 := by
    by_contra hcon
    have h1 : 2 ^ 26 ≤ b := by omega
    have h2 : (2 ^ 26) ^ 2 ≤ b ^ 2 := Nat.pow_le_pow_left h1 2
    norm_num at h2 hn52
    omega
  have hbq : (b : ℚ) + 1 ≤ 2 ^ 26 := by
    have : b + 1 ≤ 2 ^ 26 := by omega
    exact_mod_cast this
  have hb0 : (0 : ℚ) ≤ (b : ℚ) := Nat.cast_nonneg b
  have hdbl : IsDouble ((b : ℚ) + 1 / 2 ^ 27) := by
    refine ⟨(b : Int) * 2 ^ 27 + 1, -27, ?_, by norm_num, by norm_num, ?_⟩
    · rw [abs_lt]
      constructor <;> omega
    · push_cast
      rw [zpow_neg]
      norm_num
      ring
  have hsq : (b : ℚ) ^ 2 + 1 ≤ (n : ℚ) := by
    have : b ^ 2 + 1 ≤ n := h
    exact_mod_cast this
  have h2 := (hpow n ((b : ℚ) + 1 / 2 ^ 27) 1 2 hx (by positivity) (by norm_num) hdbl).1
  simp only [Nat.cast_one, Nat.cast_ofNat, pow_one] at h2
  have h3 := h2 (by nlinarith)
  have : (0 : ℚ) < 1 / 2 ^ 27 := by positivity
  linarith

theorem ceil_mul_le (n : Nat) (fraction : ℚ) (h1 : fraction ≤ 1) :
    ceil_mul n fraction ≤ n := by
  unfold ceil_mul
  apply Nat.ceil_le.mpr
  have hn : (0 : ℚ) ≤ (n : ℚ) := Nat.cast_nonneg n
  nlinarith

theorem length_resize (v : List Nat) (n : Nat) : (resize v n).length = n := by
  simp [resize]
  omega

theorem getD_cons_eraseIdx_perm {α : Type} (d : α) :
    ∀ (l : List α) (i : Nat), i < l.length → (l.getD i d :: l.eraseIdx i).Perm l
  | [], _, h => by simp at h
  | a :: t, 0, _ => by simp
  | a :: t, i + 1, h => by
    have ih := getD_cons_eraseIdx_perm d t i (by simpa using h)
    simp only [List.getD_cons_succ, List.eraseIdx_cons_succ]
    exact (List.Perm.swap a (t.getD i d) (t.eraseIdx i)).trans (ih.cons a)

theorem tape_shuffle_perm {α : Type} :
    ∀ (n : Nat) (l : List α) (g : List Nat), (tape_shuffle n l g).1.Perm l
  | 0, l, g => by simp [tape_shuffle]
  | _ + 1, [], g => by simp [tape_shuffle]
  | n + 1, x :: xs, g => by
    have hi : g.headD 0 % (xs.length + 1) < (x :: xs).length := by
      simpa using Nat.mod_lt _ (Nat.succ_pos _)
    have ih := tape_shuffle_perm n ((x :: xs).eraseIdx (g.headD 0 % (xs.length + 1))) g.tail
    simp only [tape_shuffle]
    exact (ih.cons _).trans (getD_cons_eraseIdx_perm x (x :: xs) _ hi)

theorem tape_random_shuffle_permutes : tape_random.ShufflePermutes := by
  intro α l g
  exact tape_shuffle_perm l.length l g

theorem resize_of_le (v : List Nat) (n : Nat) (h : n ≤ v.length) : resize v n = v.take n := by
  simp [resize, Nat.sub_eq_zero_of_le h]

theorem iota_resize (v : List Nat) (n start : Nat) :
    iota (resize v n) start = List.range' start n := by
  simp [iota, length_resize]

/-- C3. `shuffle_and_split(samples, n_all, size)` with `size ≤ n_all`: for every outcome of
the shuffle the resulting vector has exactly `size` elements, pairwise distinct, each below
`n_all`, and it is the same whatever `samples` held before the call. -/
theorem shuffle_and_split_distinct_in_range {G : Type} (R : Random G)
    (hR : R.ShufflePermutes) (samples : List Nat) (n_all size : Nat) (hsize : size ≤ n_all)
    (g : G) :
    (shuffle_and_split R samples n_all size g).1.length = size
      ∧ (shuffle_and_split R samples n_all size g).1.Nodup
      ∧ (∀ x ∈ (shuffle_and_split R samples n_all size g).1, x < n_all)
      ∧ ∀ previous : List Nat,
          shuffle_and_split R previous n_all size g = shuffle_and_split R samples n_all size g := by
  have hperm := hR _ (List.range' 0 n_all) g
  have hlen : (R.shuffle (List.range' 0 n_all) g).1.length = n_all := by
    rw [hperm.length_eq, List.length_range']
  have hout : ∀ v : List Nat, shuffle_and_split R v n_all size g
      = ((R.shuffle (List.range' 0 n_all) g).1.take size, (R.shuffle (List.range' 0 n_all) g).2) := by
    intro v
    simp only [shuffle_and_split, iota_resize]
    rw [resize_of_le _ _ (by omega)]
  have hnd : (R.shuffle (List.range' 0 n_all) g).1.Nodup :=
    hperm.nodup_iff.mpr (List.nodup_range' 0 n_all)
  refine ⟨?_, ?_, ?_, ?_⟩
  · rw [hout, List.length_take, hlen]
    exact min_eq_left hsize
  · rw [hout]
    exact hnd.sublist (List.take_sublist _ _)
  · intro x hx
    rw [hout] at hx
    have hx2 := hperm.mem_iff.mp (List.mem_of_mem_take hx)
    rw [List.mem_range'_1] at hx2
    omega
  · intro previous
    rw [hout, hout]

theorem shuffle_and_split_distinct_in_range_witness :
    tape_random.ShufflePermutes ∧ 3 ≤ 5
    ∧ (shuffle_and_split tape_random [9, 9] 5 3 [1, 1, 1]).1.length = 3
      ∧ (shuffle_and_split tape_random [9, 9] 5 3 [1, 1, 1]).1.Nodup
      ∧ (∀ x ∈ (shuffle_and_split tape_random [9, 9] 5 3 [1, 1, 1]).1, x < 5)
      ∧ ∀ previous : List Nat,
          shuffle_and_split tape_random previous 5 3 [1, 1, 1]
            = shuffle_and_split tape_random [9, 9] 5 3 [1, 1, 1] :=
  ⟨tape_random_shuffle_permutes, by decide,
    shuffle_and_split_distinct_in_range tape_random tape_random_shuffle_permutes [9, 9] 5 3
      (by decide) [1, 1, 1]⟩

theorem foldlM_append_parts {β : Type} (f h : β → List Nat)
    (step : List Nat × List Nat → β → Option (List Nat × List Nat)) :
    ∀ (bs : List β) (acc : List Nat × List Nat),
      (∀ b ∈ bs, ∀ a, step a b = some (a.1 ++ f b, a.2 ++ h b)) →
      bs.foldlM step acc
        = some (acc.1 ++ (bs.map f).flatten, acc.2 ++ (bs.map h).flatten)
  | [], acc, _ => by simp
  | b :: bs, acc, hstep => by
    rw [List.foldlM_cons, hstep b (List.mem_cons_self _ _) acc]
    simp only [Option.bind_eq_bind, Option.some_bind]
    rw [foldlM_append_parts f h step bs _ (fun b' hb' => hstep b' (List.mem_cons_of_mem _ hb'))]
    simp

theorem subsample_sub2_block_eq (sample_fraction : ℚ) (h1 : sample_fraction ≤ 1)
    (acc : List Nat × List Nat) (block : List Nat) :
    subsample_sub2_block sample_fraction acc block
      = some (acc.1 ++ block.take (ceil_mul block.length sample_fraction),
              acc.2 ++ block.drop (ceil_mul block.length sample_fraction)) := by
  have hk := ceil_mul_le block.length sample_fraction h1
  unfold subsample_sub2_block
  simp only [hk, if_true]
  split
  · rfl
  · rw [List.drop_of_length_le (by omega)]
    simp

theorem map_getD_range (block : List Nat) :
    (List.range block.length).map (fun i => block.getD i 0) = block := by
  apply List.ext_getElem
  · simp
  · intro i h1 h2
    simp at h1
    simp [List.getD_eq_getElem?_getD, h1]

theorem at_positions_sublist (block : List Nat) (p : Nat → Bool) :
    (at_positions block p).Sublist block := by
  have h : (at_positions block p).Sublist
      ((List.range block.length).map (fun i => block.getD i 0)) :=
    (List.filter_sublist _).map _
  rwa [map_getD_range] at h

theorem at_positions_perm (block : List Nat) (p : Nat → Bool) :
    (at_positions block p ++ at_positions block (fun i => !p i)).Perm block := by
  have h : (at_positions block p ++ at_positions block (fun i => !p i)).Perm
      ((List.range block.length).map (fun i => block.getD i 0)) := by
    unfold at_positions
    rw [← List.map_append]
    exact (List.filter_append_perm p _).map _
  rwa [map_getD_range] at h

theorem route_loop (block : List Nat) (p : Nat → Bool)
    (step : List Nat × List Nat → Nat → Option (List Nat × List Nat))
    (hstep : ∀ acc idx, idx < block.length → step acc idx
      = some (if p idx then (acc.1 ++ [block.getD idx 0], acc.2)
              else (acc.1, acc.2 ++ [block.getD idx 0]))) :
    ∀ (idxs : List Nat) (acc : List Nat × List Nat), (∀ i ∈ idxs, i < block.length) →
      idxs.foldlM step acc
        = some (acc.1 ++ (idxs.filter p).map (fun i => block.getD i 0),
                acc.2 ++ (idxs.filter (fun i => !p i)).map (fun i => block.getD i 0))
  | [], acc, _ => by simp
  | i :: idxs, acc, hin => by
    rw [List.foldlM_cons, hstep acc i (hin i (List.mem_cons_self _ _))]
    simp only [Option.bind_eq_bind, Option.some_bind]
    rw [route_loop block p step hstep idxs _ (fun j hj => hin j (List.mem_cons_of_mem _ hj))]
    cases hp : p i <;> simp [hp]

theorem getElem?_eq_some_getD (block : List Nat) (idx : Nat) (h : idx < block.length) :
    block[idx]? = some (block.getD idx 0) := by
  simp [List.getD_eq_getElem?_getD, h]

theorem sub1_alternate_step_eq (block : List Nat) (k : Nat) (acc : List Nat × List Nat)
    (idx : Nat) (h : idx < block.length) :
    sub1_alternate_step block k acc idx
      = some (if (decide (idx < 2 * k ∧ idx % 2 = 0)) then (acc.1 ++ [block.getD idx 0], acc.2)
              else (acc.1, acc.2 ++ [block.getD idx 0])) := by
  unfold sub1_alternate_step
  rw [getElem?_eq_some_getD block idx h]
  by_cases h1 : idx < 2 * k <;> by_cases h2 : idx % 2 = 0 <;> simp [h1, h2]

theorem sub1_extra_step_eq (block : List Nat) (acc : List Nat × List Nat)
    (idx : Nat) (h : idx < block.length) :
    sub1_extra_step block acc idx
      = some (if (fun _ => true) idx then (acc.1 ++ [block.getD idx 0], acc.2)
              else (acc.1, acc.2 ++ [block.getD idx 0])) := by
  unfold sub1_extra_step
  rw [getElem?_eq_some_getD block idx h]
  simp

theorem sub1_rest_step_eq (block : List Nat) (extra : Nat) (acc : List Nat × List Nat)
    (idx : Nat) (h : idx < block.length) :
    sub1_rest_step block extra acc idx
      = some (if (decide ((idx - extra) % 2 = 0)) then (acc.1 ++ [block.getD idx 0], acc.2)
              else (acc.1, acc.2 ++ [block.getD idx 0])) := by
  unfold sub1_rest_step
  rw [getElem?_eq_some_getD block idx h]
  by_cases h2 : (idx - extra) % 2 = 0 <;> simp [h2]

theorem range_split (total extra : Nat) (h : extra ≤ total) :
    List.range total = List.range extra ++ List.range' extra (total - extra) := by
  rw [List.range_eq_range', List.range_eq_range']
  have := List.range'_append 0 extra (total - extra) 1
  simp only [Nat.one_mul, Nat.zero_add] at this
  rw [this]
  congr 1
  omega

theorem subsample_sub1_block_eq (sample_fraction : ℚ) (h1 : sample_fraction ≤ 1)
    (acc : List Nat × List Nat) (block : List Nat) :
    subsample_sub1_block sample_fraction acc block
      = some (acc.1 ++ at_positions block
                (sub1_selects block.length (ceil_mul block.length sample_fraction)),
              acc.2 ++ at_positions block
                (fun i => !sub1_selects block.length (ceil_mul block.length sample_fraction) i)) := by
  have hk := ceil_mul_le block.length sample_fraction h1
  unfold subsample_sub1_block
  simp only
  generalize ceil_mul block.length sample_fraction = k at hk
  by_cases hb : k ≤ block.length / 2
  · rw [if_pos hb, route_loop block _ _ (sub1_alternate_step_eq block k) _ acc
      (fun i hi => List.mem_range.mp hi)]
    have hsel : sub1_selects block.length k = fun idx => decide (idx < 2 * k ∧ idx % 2 = 0) := by
      funext idx
      simp [sub1_selects, hb]
    simp only [at_positions, hsel]
  · rw [if_neg hb]
    have hextra : k - block.length / 2 ≤ block.length := by omega
    rw [route_loop block _ _ (sub1_extra_step_eq block) _ acc
      (fun i hi => by have := List.mem_range.mp hi; omega)]
    simp only
    rw [route_loop block _ _ (sub1_rest_step_eq block (k - block.length / 2)) _ _
      (fun i hi => by have := List.mem_range'_1.mp hi; omega)]
    simp only [at_positions]
    rw [range_split block.length (k - block.length / 2) hextra]
    simp only [List.filter_append, List.map_append, List.append_assoc]
    have e1 : (List.range (k - block.length / 2)).filter (sub1_selects block.length k)
        = (List.range (k - block.length / 2)).filter (fun _ => true) := by
      apply List.filter_congr
      intro x hx
      have := List.mem_range.mp hx
      simp [sub1_selects, hb, this]
    have e2 : (List.range (k - block.length / 2)).filter
          (fun i => !sub1_selects block.length k i)
        = (List.range (k - block.length / 2)).filter (fun i => !(fun _ => true) i) := by
      apply List.filter_congr
      intro x hx
      have := List.mem_range.mp hx
      simp [sub1_selects, hb, this]
    have e3 : (List.range' (k - block.length / 2) (block.length - (k - block.length / 2))).filter
          (sub1_selects block.length k)
        = (List.range' (k - block.length / 2) (block.length - (k - block.length / 2))).filter
          (fun idx => decide ((idx - (k - block.length / 2)) % 2 = 0)) := by
      apply List.filter_congr
      intro x hx
      have := List.mem_range'_1.mp hx
      have hx2 : ¬ x < k - block.length / 2 := by omega
      simp [sub1_selects, hb, hx2]
    have e4 : (List.range' (k - block.length / 2) (block.length - (k - block.length / 2))).filter
          (fun i => !sub1_selects block.length k i)
        = (List.range' (k - block.length / 2) (block.length - (k - block.length / 2))).filter
          (fun idx => !decide ((idx - (k - block.length / 2)) % 2 = 0)) := by
      apply List.filter_congr
      intro x hx
      have := List.mem_range'_1.mp hx
      have hx2 : ¬ x < k - block.length / 2 := by omega
      simp [sub1_selects, hb, hx2]
    rw [e1, e2, e3, e4]

/-- C6. Honesty method 1 called with empty sub and oob, fraction in `[0, 1]`, blocks of any
lengths: the call returns; for each block the positions selected by the conditions of the
code go to sub and all other positions go to oob, so every position goes to exactly one of
them; both parts keep the order of the block (they are sublists of it) and together they are a
permutation of the block. -/
theorem subsample_sub1_routes_each_position (samples : List Nat) (blocks : List (List Nat))
    (sample_fraction : ℚ) (_h0 : 0 ≤ sample_fraction) (h1 : sample_fraction ≤ 1) :
    subsample_sub1 samples blocks sample_fraction [] []
        = some ((blocks.map fun b => at_positions b
                  (sub1_selects b.length ⌈(b.length : ℚ) * sample_fraction⌉₊)).flatten,
                (blocks.map fun b => at_positions b
                  (fun i => !sub1_selects b.length ⌈(b.length : ℚ) * sample_fraction⌉₊ i)).flatten)
      ∧ ∀ b ∈ blocks,
          (at_positions b (sub1_selects b.length ⌈(b.length : ℚ) * sample_fraction⌉₊)).Sublist b
          ∧ (at_positions b
              (fun i => !sub1_selects b.length ⌈(b.length : ℚ) * sample_fraction⌉₊ i)).Sublist b
          ∧ (at_positions b (sub1_selects b.length ⌈(b.length : ℚ) * sample_fraction⌉₊)
              ++ at_positions b
                (fun i => !sub1_selects b.length ⌈(b.length : ℚ) * sample_fraction⌉₊ i)).Perm b := by
  refine ⟨?_, fun b _ => ⟨at_positions_sublist b _, at_positions_sublist b _,
    at_positions_perm b _⟩⟩
  unfold subsample_sub1
  rw [foldlM_append_parts
    (fun b => at_positions b (sub1_selects b.length ⌈(b.length : ℚ) * sample_fraction⌉₊))
    (fun b => at_positions b
      (fun i => !sub1_selects b.length ⌈(b.length : ℚ) * sample_fraction⌉₊ i))]
  · simp
  · intro b _ a
    exact subsample_sub1_block_eq sample_fraction h1 a b

theorem subsample_sub1_routes_each_position_witness :
    (0 : ℚ) ≤ 1 / 2 ∧ (1 / 2 : ℚ) ≤ 1
    ∧ (subsample_sub1 [] [[1, 2, 3, 4, 5], [], [6, 7, 8]] (1 / 2) [] []
        = some ((([[1, 2, 3, 4, 5], [], [6, 7, 8]] : List (List Nat)).map fun b => at_positions b
                  (sub1_selects b.length ⌈(b.length : ℚ) * (1 / 2)⌉₊)).flatten,
                (([[1, 2, 3, 4, 5], [], [6, 7, 8]] : List (List Nat)).map fun b => at_positions b
                  (fun i => !sub1_selects b.length ⌈(b.length : ℚ) * (1 / 2)⌉₊ i)).flatten)
      ∧ ∀ b ∈ ([[1, 2, 3, 4, 5], [], [6, 7, 8]] : List (List Nat)),
          (at_positions b (sub1_selects b.length ⌈(b.length : ℚ) * (1 / 2)⌉₊)).Sublist b
          ∧ (at_positions b
              (fun i => !sub1_selects b.length ⌈(b.length : ℚ) * (1 / 2)⌉₊ i)).Sublist b
          ∧ (at_positions b (sub1_selects b.length ⌈(b.length : ℚ) * (1 / 2)⌉₊)
              ++ at_positions b
                (fun i => !sub1_selects b.length ⌈(b.length : ℚ) * (1 / 2)⌉₊ i)).Perm b) :=
  ⟨by norm_num, by norm_num,
    subsample_sub1_routes_each_position [] [[1, 2, 3, 4, 5], [], [6, 7, 8]] (1 / 2)
      (by norm_num) (by norm_num)⟩

theorem ceil_mul_four_half : ceil_mul 4 (1 / 2) = 2 := by
  unfold ceil_mul
  rw [Nat.ceil_eq_iff (by norm_num)]
  norm_num

/-- C5. Honesty method 4 on the single block `[1, 2, 3, 4]` with fraction `1/2`, when the
shuffle turns the block into `[4, 3, 2, 1]`: sub receives `[4, 3]` (the prefix of the shuffled
block) and oob receives `[3, 4]` (the tail of the block as it was before the shuffle), so 3 and
4 are in both and 1 and 2 are in neither. -/
theorem subsample_sub4_overlap :
    (tape_random.shuffle [1, 2, 3, 4] [3, 2, 1, 0]).1 = [4, 3, 2, 1]
      ∧ subsample_sub4 tape_random [] [[1, 2, 3, 4]] (1 / 2) [] [] [3, 2, 1, 0]
        = some ([4, 3], [3, 4], [])
      ∧ ¬ ([4, 3] : List Nat).Disjoint [3, 4]
      ∧ ¬ (([4, 3] : List Nat) ++ [3, 4]).Perm [1, 2, 3, 4] := by
  refine ⟨by rfl, ?_, fun h => h (show 3 ∈ [4, 3] by decide) (show 3 ∈ [3, 4] by decide),
    by decide⟩
  have hs : tape_random.shuffle [1, 2, 3, 4] [3, 2, 1, 0] = ([4, 3, 2, 1], []) := by rfl
  have hc : ceil_mul 4 2⁻¹ = 2 := by simpa using ceil_mul_four_half
  simp [subsample_sub4, subsample_sub4_block, hc, hs]

/-- C10. The honesty dispatcher on empty `samples` and an empty block list: methods 3 and 4
read `blocks[0]` of the empty vector, a fault, whatever the generator and the fraction;
methods 0 (shown on the example generator), 1 and 2 return with sub and oob empty. -/
theorem subsample_honesty_empty_blocks_fault {G C : Type} (R : Random G) (rand : C → Nat × C)
    (sample_fraction : ℚ) (g : G) (c : C) (tape : List Nat) :
    subsample_honesty R rand [] [] ⟨sample_fraction, 3⟩ [] [] g c = none
      ∧ subsample_honesty R rand [] [] ⟨sample_fraction, 4⟩ [] [] g c = none
      ∧ subsample_honesty tape_random rand [] [] ⟨sample_fraction, 0⟩ [] [] tape c
          = some ([], [], tape, c)
      ∧ subsample_honesty R rand [] [] ⟨sample_fraction, 1⟩ [] [] g c = some ([], [], g, c)
      ∧ subsample_honesty R rand [] [] ⟨sample_fraction, 2⟩ [] [] g c = some ([], [], g, c) := by
  have h0 : ceil_mul 0 sample_fraction = 0 := by simp [ceil_mul]
  refine ⟨?_, ?_, ?_, ?_, ?_⟩
  · simp [subsample_honesty, subsample_sub3]
  · simp [subsample_honesty, subsample_sub4]
  · simp [subsample_honesty, subsample_sub0, h0, copy, resize, tape_random, tape_shuffle]
  · simp [subsample_honesty, subsample_sub1]
  · simp [subsample_honesty, subsample_sub2]

theorem ceil_root_from_spec (n g : Nat) :
    ∀ (fuel b : Nat), (∀ b2, b2 < b → b2 ^ g < n) → n ≤ (b + fuel) ^ g →
      n ≤ (ceil_root_from n g fuel b) ^ g
        ∧ (∀ b2, b2 < ceil_root_from n g fuel b → b2 ^ g < n)
        ∧ ceil_root_from n g fuel b ≤ b + fuel
  | 0, b, hlow, hhigh => by
    simp only [ceil_root_from]
    exact ⟨by simpa using hhigh, hlow, by omega⟩
  | fuel + 1, b, hlow, hhigh => by
    simp only [ceil_root_from]
    by_cases hb : n ≤ b ^ g
    · rw [if_pos hb]
      exact ⟨hb, hlow, by omega⟩
    · rw [if_neg hb]
      have hlow2 : ∀ b2, b2 < b + 1 → b2 ^ g < n := by
        intro b2 h2
        rcases Nat.lt_succ_iff_lt_or_eq.mp h2 with h | h
        · exact hlow b2 h
        · subst h
          omega
      have := ceil_root_from_spec n g fuel (b + 1) hlow2
        (by rwa [show b + 1 + fuel = b + (fuel + 1) by omega])
      exact ⟨this.1, this.2.1, by omega⟩

theorem ceil_root_spec (n g : Nat) (hg : 1 ≤ g) :
    n ≤ (ceil_root n g) ^ g ∧ (∀ b, b < ceil_root n g → b ^ g < n) ∧ ceil_root n g ≤ n := by
  have h := ceil_root_from_spec n g n 0 (fun b2 h2 => absurd h2 (Nat.not_lt_zero b2))
    (by rw [Nat.zero_add]; exact Nat.le_self_pow (by omega) n)
  exact ⟨h.1, h.2.1, by simpa using h.2.2⟩

theorem ceil_root_pos (n g : Nat) (hn : 1 ≤ n) (hg : 1 ≤ g) : 1 ≤ ceil_root n g := by
  by_contra h
  have h0 : ceil_root n g = 0 := by omega
  have := (ceil_root_spec n g hg).1
  rw [h0, Nat.zero_pow (by omega)] at this
  omega

theorem block_and_split_loop {C : Type} (rand : C → Nat × C) (n_all block_size : Nat) :
    ∀ (is : List Nat) (samples : List Nat) (blocks : List (List Nat)) (index : Nat) (c : C),
      index + is.length * block_size ≤ samples.length →
      ∃ (starts : List Nat) (c2 : C),
        is.foldlM (block_and_split_step rand n_all block_size) (samples, blocks, index, c)
          = some (samples.take index
                    ++ (starts.map fun s => List.range' s block_size).flatten
                    ++ samples.drop (index + is.length * block_size),
                  blocks ++ starts.map (fun s => List.range' s block_size),
                  index + is.length * block_size, c2)
        ∧ starts.length = is.length
        ∧ ∀ s ∈ starts, s ≤ n_all - block_size
  | [], samples, blocks, index, c, _ => ⟨[], c, by simp, rfl, by simp⟩
  | i :: is, samples, blocks, index, c, hlen => by
    have hlen1 : index + block_size ≤ samples.length := by
      simp only [List.length_cons, Nat.add_mul, Nat.one_mul] at hlen
      omega
    have hstart : (rand c).1 % (n_all - block_size + 1) ≤ n_all - block_size :=
      Nat.lt_succ_iff.mp (Nat.mod_lt _ (Nat.succ_pos _))
    generalize hsdef : (rand c).1 % (n_all - block_size + 1) = start at hstart
    have hstep : block_and_split_step rand n_all block_size (samples, blocks, index, c) i
        = some (samples.take index ++ List.range' start block_size
                  ++ samples.drop (index + block_size),
                blocks ++ [List.range' start block_size], index + block_size, (rand c).2) := by
      simp only [block_and_split_step, hsdef, if_pos hlen1, iota, List.length_replicate,
        List.length_take, List.length_drop]
      rw [Nat.min_eq_left (by omega)]
    have hA : (samples.take index ++ List.range' start block_size).length
        = index + block_size := by
      rw [List.length_append, List.length_take, List.length_range', Nat.min_eq_left (by omega)]
    obtain ⟨starts, c2, hfold, hcount, hrange⟩ := block_and_split_loop rand n_all block_size is
      (samples.take index ++ List.range' start block_size ++ samples.drop (index + block_size))
      (blocks ++ [List.range' start block_size]) (index + block_size) (rand c).2
      (by
        simp only [List.length_append, List.length_take, List.length_range', List.length_drop,
          List.length_cons, Nat.add_mul, Nat.one_mul] at hlen ⊢
        omega)
    refine ⟨start :: starts, c2, ?_, by simp [hcount], ?_⟩
    · rw [List.foldlM_cons, hstep]
      simp only [Option.bind_eq_bind, Option.some_bind]
      rw [hfold]
      have e1 : (samples.take index ++ List.range' start block_size
            ++ samples.drop (index + block_size)).take (index + block_size)
          = samples.take index ++ List.range' start block_size :=
        List.take_left' hA
      have e2 : (samples.take index ++ List.range' start block_size
            ++ samples.drop (index + block_size)).drop (index + block_size + is.length * block_size)
          = samples.drop (index + (i :: is).length * block_size) := by
        have h := @List.drop_append Nat (samples.take index ++ List.range' start block_size)
          (samples.drop (index + block_size)) (is.length * block_size)
        rw [hA] at h
        rw [h, List.drop_drop]
        congr 1
        simp only [List.length_cons, Nat.add_mul, Nat.one_mul]
        omega
      rw [e1, e2]
      simp only [List.length_cons, Nat.add_mul, Nat.one_mul, List.map_cons, List.flatten_cons,
        List.append_assoc, List.singleton_append]
      rw [show index + block_size + is.length * block_size
        = index + (is.length * block_size + block_size) by omega]
    · intro s hs
      rcases List.mem_cons.mp hs with h | h
      · rw [h]; exact hstart
      · exact hrange s h

theorem block_and_split_eq {C : Type} (pow : ℚ → ℚ → ℚ) (rand : C → Nat × C)
    (samples : List Nat) (n_all : Nat) (sample_fraction : ℚ) (g : Int) (c : C) (b : Nat)
    (hnum : block_num_of pow n_all g = some b) (hb : 1 ≤ b) :
    ∃ (starts : List Nat) (c2 : C),
      block_and_split pow rand samples n_all sample_fraction [] g c
        = some ((starts.map fun s => List.range' s (n_all / b)).flatten,
                starts.map (fun s => List.range' s (n_all / b)), c2)
      ∧ starts.length = ceil_mul (n_all / b) sample_fraction
      ∧ ∀ s ∈ starts, s ≤ n_all - n_all / b := by
  obtain ⟨starts, c2, hfold, hcount, hrange⟩ := block_and_split_loop rand n_all
    (n_all / b)
    (List.range (ceil_mul (n_all / b) sample_fraction))
    (resize samples (ceil_mul (n_all / b) sample_fraction
      * (n_all / b))) [] 0 c
    (by simp [length_resize])
  refine ⟨starts, c2, ?_, by simpa using hcount, hrange⟩
  have hne : b ≠ 0 := by omega
  simp only [block_and_split, hnum, if_neg hne, hfold, Option.map_some']
  have hdrop : (resize samples (ceil_mul (n_all / b) sample_fraction
      * (n_all / b))).drop
        (0 + (List.range (ceil_mul (n_all / b) sample_fraction)).length
          * (n_all / b)) = [] := by
    apply List.drop_of_length_le
    simp [length_resize]
  rw [hdrop]
  simp

theorem round_double_inv_mem (g : Nat) (hg : 1 ≤ g) :
    0 ≤ round_double (1 / (g : ℚ)) ∧ round_double (1 / (g : ℚ)) ≤ 1 := by
  have hg1 : (1 : ℚ) ≤ (g : ℚ) := by exact_mod_cast hg
  have h0 : (0 : ℚ) ≤ 1 / (g : ℚ) := by positivity
  have h1 : 1 / (g : ℚ) ≤ 1 := by
    rw [div_le_one (by linarith)]
    exact hg1
  exact ⟨round_double_nonneg _ h0, round_double_le_one _ h0 h1⟩

theorem block_num_of_faithful (pow : ℚ → ℚ → ℚ) (hpow : PowFaithful pow) (n : Nat)
    (hn : 1 ≤ n) (hn53 : n < 2 ^ 53) (g : Nat) (hg : 1 ≤ g) :
    block_num_of pow n (g : Int) = some ⌈pow (n : ℚ) (round_double (1 / (g : ℚ)))⌉₊
      ∧ 1 ≤ ⌈pow (n : ℚ) (round_double (1 / (g : ℚ)))⌉₊
      ∧ ⌈pow (n : ℚ) (round_double (1 / (g : ℚ)))⌉₊ ≤ n := by
  obtain ⟨hy0, hy1⟩ := round_double_inv_mem g hg
  have hx : (1 : ℚ) ≤ (n : ℚ) := by exact_mod_cast hn
  have hlow := pow_faithful_one_le pow hpow (n : ℚ) _ hx hy0
  have hup := pow_faithful_le_self pow hpow (n : ℚ) _ (isDouble_natCast n hn53) hx hy0 hy1
  have hceil1 : 1 ≤ ⌈pow (n : ℚ) (round_double (1 / (g : ℚ)))⌉₊ :=
    Nat.one_le_iff_ne_zero.mpr (by
      intro h
      rw [Nat.ceil_eq_zero] at h
      linarith)
  have hceil2 : ⌈pow (n : ℚ) (round_double (1 / (g : ℚ)))⌉₊ ≤ n := Nat.ceil_le.mpr hup
  refine ⟨?_, hceil1, hceil2⟩
  have hg0 : ¬ ((g : Int) = 0) := by omega
  have hn0 : ¬ n = 0 := by omega
  have hcheck : ¬ (pow (n : ℚ) (round_double (1 / (g : ℚ))) ≤ -1
      ∨ 2 ^ 64 ≤ ⌈pow (n : ℚ) (round_double (1 / (g : ℚ)))⌉₊) := by
    rintro (h | h)
    · linarith
    · have : n < 2 ^ 64 := lt_trans hn53 (by norm_num)
      omega
  simp only [block_num_of, if_neg hg0, if_neg hn0, round_double_natCast n hn53, Int.cast_natCast,
    if_neg hcheck]

theorem ceil_root_one (n : Nat) : ceil_root n 1 = n := by
  have h := ceil_root_spec n 1 (le_refl 1)
  have h1 := h.1
  have h2 := h.2.2
  rw [pow_one] at h1
  omega

theorem block_num_of_exact (pow : ℚ → ℚ → ℚ) (hpow : PowFaithful pow) (n : Nat)
    (hn : 1 ≤ n) (hn52 : n < 2 ^ 52) (g : Nat) (hg : 1 ≤ g) (hg2 : g ≤ 2) :
    block_num_of pow n (g : Int) = some (ceil_root n g) := by
  have hn53 : n < 2 ^ 53 := lt_trans hn52 (by norm_num)
  have hx : (0 : ℚ) < (n : ℚ) := by exact_mod_cast hn
  rw [(block_num_of_faithful pow hpow n hn hn53 g hg).1]
  congr 1
  have hcases : g = 1 ∨ g = 2 := by omega
  rcases hcases with rfl | rfl
  · rw [ceil_root_one]
    simp only [Nat.cast_one, ne_eq, one_ne_zero, not_false_eq_true, div_self, round_double_one]
    rw [pow_faithful_exp_one pow hpow (n : ℚ) (isDouble_natCast n hn53) hx]
    exact Nat.ceil_natCast n
  · have hspec := ceil_root_spec n 2 (by norm_num)
    have hpos := ceil_root_pos n 2 hn (by norm_num)
    have hy : round_double (1 / ((2 : Nat) : ℚ)) = 1 / 2 := by
      simpa using round_double_half
    rw [hy]
    have hup := pow_faithful_sqrt_le pow hpow n (ceil_root n 2) hn
      (lt_of_le_of_lt hspec.2.2 hn53) hspec.1
    have hlow := pow_faithful_lt_sqrt pow hpow n (ceil_root n 2 - 1) hn52
      (hspec.2.1 _ (by omega))
    rw [Nat.ceil_eq_iff (by omega)]
    refine ⟨?_, hup⟩
    exact hlow

theorem skip_remap_cons (s : Nat) (rest : List Nat) (d : Nat) :
    skip_remap (s :: rest) d = skip_remap rest (if d ≥ s then d + 1 else d) := by
  simp [skip_remap]

theorem skip_remap_ge : ∀ (skip : List Nat) (d : Nat), d ≤ skip_remap skip d
  | [], d => by simp [skip_remap]
  | s :: rest, d => by
    rw [skip_remap_cons]
    by_cases hd : d ≥ s
    · rw [if_pos hd]
      have := skip_remap_ge rest (d + 1)
      omega
    · rw [if_neg hd]
      exact skip_remap_ge rest d

theorem skip_remap_le : ∀ (skip : List Nat) (d : Nat), skip_remap skip d ≤ d + skip.length
  | [], d => by simp [skip_remap]
  | s :: rest, d => by
    rw [skip_remap_cons, List.length_cons]
    by_cases hd : d ≥ s
    · rw [if_pos hd]
      have := skip_remap_le rest (d + 1)
      omega
    · rw [if_neg hd]
      have := skip_remap_le rest d
      omega

theorem skip_remap_below : ∀ (skip : List Nat) (d : Nat), (∀ x ∈ skip, d < x) →
    skip_remap skip d = d
  | [], d, _ => by simp [skip_remap]
  | s :: rest, d, h => by
    rw [skip_remap_cons]
    have hs : ¬ d ≥ s := by
      have := h s (List.mem_cons_self _ _)
      omega
    rw [if_neg hs]
    exact skip_remap_below rest d (fun x hx => h x (List.mem_cons_of_mem _ hx))

theorem skip_remap_not_mem : ∀ (skip : List Nat) (d : Nat), skip.Pairwise (· < ·) →
    skip_remap skip d ∉ skip
  | [], d, _ => by simp
  | s :: rest, d, hsorted => by
    rw [skip_remap_cons]
    obtain ⟨hs, hrest⟩ := List.pairwise_cons.mp hsorted
    have ih := skip_remap_not_mem rest (if d ≥ s then d + 1 else d) hrest
    intro hmem
    rcases List.mem_cons.mp hmem with h | h
    · by_cases hd : d ≥ s
      · rw [if_pos hd] at h
        have := skip_remap_ge rest (d + 1)
        omega
      · rw [if_neg hd] at h
        rw [skip_remap_below rest d (fun x hx => by have := hs x hx; omega)] at h
        omega
    · exact ih h

theorem filter_not_mem_split (max s : Nat) (rest : List Nat) (hs : s < max)
    (hrest : ∀ r ∈ rest, s < r) :
    (List.range max).filter (fun x => decide (x ∉ rest))
      = List.range s ++ [s]
        ++ (List.range' (s + 1) (max - (s + 1))).filter (fun x => decide (x ∉ rest)) := by
  rw [range_split max (s + 1) (by omega), List.filter_append, List.range_succ]
  congr 1
  rw [List.filter_eq_self]
  intro x hx
  have hxs : x ≤ s := by
    rcases List.mem_append.mp hx with h | h
    · exact Nat.le_of_lt (List.mem_range.mp h)
    · rw [List.mem_singleton.mp h]
  simp only [decide_eq_true_eq]
  intro hmem
  have := hrest x hmem
  omega

theorem filter_not_mem_cons (max s : Nat) (rest : List Nat) (hs : s < max)
    (hrest : ∀ r ∈ rest, s < r) :
    (List.range max).filter (fun x => decide (x ∉ s :: rest))
      = List.range s
        ++ (List.range' (s + 1) (max - (s + 1))).filter (fun x => decide (x ∉ rest)) := by
  rw [range_split max (s + 1) (by omega), List.filter_append, List.range_succ,
    List.filter_append]
  have e1 : (List.range s).filter (fun x => decide (x ∉ s :: rest)) = List.range s := by
    rw [List.filter_eq_self]
    intro x hx
    have hxs := List.mem_range.mp hx
    simp only [decide_eq_true_eq, List.mem_cons, not_or]
    exact ⟨by omega, fun hmem => by have := hrest x hmem; omega⟩
  have e2 : [s].filter (fun x => decide (x ∉ s :: rest)) = [] := by simp
  have e3 : (List.range' (s + 1) (max - (s + 1))).filter (fun x => decide (x ∉ s :: rest))
      = (List.range' (s + 1) (max - (s + 1))).filter (fun x => decide (x ∉ rest)) := by
    apply List.filter_congr
    intro x hx
    have := List.mem_range'_1.mp hx
    have hne : x ≠ s := by omega
    simp [hne]
  rw [e1, e2, e3, List.append_nil]

theorem erase_skip_eq (max : Nat) :
    ∀ skip : List Nat, skip.Pairwise (· < ·) → (∀ s ∈ skip, s < max) →
      skip.reverse.foldlM erase_at (List.range' 0 max)
          = some ((List.range max).filter (fun x => decide (x ∉ skip)))
        ∧ ((List.range max).filter (fun x => decide (x ∉ skip))).length + skip.length = max
  | [], _, _ => by simp [List.range_eq_range']
  | s :: rest, hsorted, hlt => by
    obtain ⟨hs, hrest⟩ := List.pairwise_cons.mp hsorted
    obtain ⟨ih, ihlen⟩ := erase_skip_eq max rest hrest
      (fun r hr => hlt r (List.mem_cons_of_mem _ hr))
    have hsmax := hlt s (List.mem_cons_self _ _)
    have hsplit := filter_not_mem_split max s rest hsmax hs
    have hcons := filter_not_mem_cons max s rest hsmax hs
    have herase : ((List.range max).filter (fun x => decide (x ∉ rest))).eraseIdx s
        = (List.range max).filter (fun x => decide (x ∉ s :: rest)) := by
      rw [hsplit, hcons, List.eraseIdx_append_of_lt_length (by simp),
        List.eraseIdx_append_of_length_le (by simp)]
      simp
    have hslen : s < ((List.range max).filter (fun x => decide (x ∉ rest))).length := by
      rw [hsplit]
      simp
    constructor
    · rw [List.reverse_cons, List.foldlM_append, ih]
      simp only [Option.bind_eq_bind, Option.some_bind, List.foldlM_cons, List.foldlM_nil,
        erase_at, if_pos hslen, herase, Option.pure_def]
    · rw [← herase, List.length_eraseIdx, if_pos hslen, List.length_cons]
      omega

theorem skip_remap_strict_mono : ∀ (skip : List Nat) (a b : Nat), a < b →
    skip_remap skip a < skip_remap skip b
  | [], a, b, h => by simpa [skip_remap] using h
  | s :: rest, a, b, h => by
    rw [skip_remap_cons, skip_remap_cons]
    apply skip_remap_strict_mono rest
    split <;> split <;> omega

theorem skip_remap_injective (skip : List Nat) : Function.Injective (skip_remap skip) := by
  intro a b h
  rcases Nat.lt_trichotomy a b with hlt | heq | hgt
  · have := skip_remap_strict_mono skip a b hlt
    omega
  · exact heq
  · have := skip_remap_strict_mono skip b a hgt
    omega

theorem ceil_mul_one (n : Nat) : ceil_mul n 1 = n := by
  simp [ceil_mul]

theorem ceil_mul_one_half : ceil_mul 1 (1 / 2) = 1 := by
  unfold ceil_mul
  rw [Nat.ceil_eq_iff (by norm_num)]
  norm_num

/-- C18. Honesty method 1 on the block `[1, 2, 3, 4]` with fraction `4/5`: the needed size
is `ceil(4 * 4/5) = 4`, more than half the block, so the prefix of `4 - 4 / 2 = 2` elements
goes to sub and the alternation over the remaining two sends 3 to sub and 4 to oob: sub
receives three elements, one short of the needed size, and oob one instead of none. -/
theorem subsample_sub1_short_of_needed_size :
    ceil_mul 4 (4 / 5) = 4
      ∧ subsample_sub1 [] [[1, 2, 3, 4]] (4 / 5) [] [] = some ([1, 2, 3], [4])
      ∧ ([1, 2, 3] : List Nat).length ≠ ceil_mul 4 (4 / 5)
      ∧ ([4] : List Nat).length ≠ 4 - ceil_mul 4 (4 / 5) := by
  have h : ceil_mul 4 (4 / 5) = 4 := by
    unfold ceil_mul
    rw [Nat.ceil_eq_iff (by norm_num)]
    norm_num
  refine ⟨h, ?_, by rw [h]; decide, by rw [h]; decide⟩
  have hb := subsample_sub1_block_eq (4 / 5) (by norm_num) ([], []) [1, 2, 3, 4]
  simp only [subsample_sub1, List.foldlM_cons, List.foldlM_nil, hb, List.length_cons,
    List.length_nil]
  rw [show ceil_mul (0 + 1 + 1 + 1 + 1) (4 / 5) = 4 from h]
  decide

theorem block_num_of_exp_one (pow : ℚ → ℚ → ℚ) (hpow : PowFaithful pow) (n : Nat)
    (hn : 1 ≤ n) (hn52 : n < 2 ^ 52) : block_num_of pow n 1 = some n := by
  have h := block_num_of_exact pow hpow n hn hn52 1 (le_refl 1) (by norm_num)
  rw [ceil_root_one] at h
  exact_mod_cast h

theorem block_and_split_four_rows (pow : ℚ → ℚ → ℚ) (hnum : block_num_of pow 4 1 = some 4) :
    block_and_split pow tape_rand [] 4 (1 / 2) [] 1 [0] = some ([0], [[0]], [])
      ∧ block_and_split pow tape_rand [] 4 (1 / 2) [] 1 [1] = some ([1], [[1]], []) := by
  have h2 : ceil_mul 1 2⁻¹ = 1 := by simpa using ceil_mul_one_half
  constructor
  · simp [block_and_split, hnum, h2, resize, block_and_split_step, tape_rand, iota,
      List.range_succ]
  · simp [block_and_split, hnum, h2, resize, block_and_split_step, tape_rand, iota,
      List.range_succ]

/-- C14. The blocks drawn by `block_and_split` and the window chosen by honesty method 3
follow the state of the C library `rand()`, not the sampler's generator: the same calls with
the same arguments give different outputs when only that global state differs. -/
theorem block_and_split_and_sub3_follow_global_rand :
    block_and_split example_pow tape_rand [] 4 (1 / 2) [] 1 [0] = some ([0], [[0]], [])
      ∧ block_and_split example_pow tape_rand [] 4 (1 / 2) [] 1 [1] = some ([1], [[1]], [])
      ∧ subsample_sub3 tape_rand [] [[1, 2, 3, 4]] (1 / 2) [] [] [0] = some ([1, 2], [3, 4], [])
      ∧ subsample_sub3 tape_rand [] [[1, 2, 3, 4]] (1 / 2) [] [] [1]
          = some ([2, 3], [1, 4], []) := by
  have hrows := block_and_split_four_rows example_pow
    (block_num_of_exp_one example_pow example_pow_faithful 4 (by norm_num) (by norm_num))
  have h4 : ceil_mul 4 2⁻¹ = 2 := by simpa using ceil_mul_four_half
  refine ⟨hrows.1, hrows.2, ?_, ?_⟩
  · simp [subsample_sub3, subsample_sub3_block, h4, tape_rand]
  · simp [subsample_sub3, subsample_sub3_block, h4, tape_rand]

theorem skip_remap_lt_max (max : Nat) (skip : List Nat) (d : Nat)
    (hd : d < max - skip.length) : skip_remap skip d < max := by
  have := skip_remap_le skip d
  omega

theorem unskipped_eq_map_remap (max : Nat) (skip : List Nat) (hsorted : skip.Pairwise (· < ·))
    (hskip : ∀ s ∈ skip, s < max) :
    (List.range max).filter (fun x => decide (x ∉ skip))
      = (List.range (max - skip.length)).map (skip_remap skip) := by
  have hlen := (erase_skip_eq max skip hsorted hskip).2
  have hnd : ((List.range (max - skip.length)).map (skip_remap skip)).Nodup :=
    (List.nodup_range _).map (skip_remap_injective skip)
  have hsub : (List.range (max - skip.length)).map (skip_remap skip)
      ⊆ (List.range max).filter (fun x => decide (x ∉ skip)) := by
    intro x hx
    obtain ⟨d, hd, rfl⟩ := List.mem_map.mp hx
    have hd2 := List.mem_range.mp hd
    rw [List.mem_filter, List.mem_range]
    exact ⟨skip_remap_lt_max max skip d hd2,
      by simpa using skip_remap_not_mem skip d hsorted⟩
  have hperm : ((List.range (max - skip.length)).map (skip_remap skip)).Perm
      ((List.range max).filter (fun x => decide (x ∉ skip))) := by
    apply (hnd.subperm hsub).perm_of_length_le
    rw [List.length_map, List.length_range]
    omega
  have hs1 : ((List.range (max - skip.length)).map (skip_remap skip)).Sorted (· < ·) := by
    rw [List.Sorted, List.pairwise_map]
    exact (List.pairwise_lt_range _).imp (fun h => skip_remap_strict_mono skip _ _ h)
  have hs2 : ((List.range max).filter (fun x => decide (x ∉ skip))).Sorted (· < ·) :=
    (List.pairwise_lt_range max).sublist (List.filter_sublist _)
  exact (List.eq_of_perm_of_sorted hperm hs1 hs2).symm

/-- C19. Skip remapping of `draw_simple`, for a strictly ascending `skip` inside `[0, max)`
with fewer than `max` elements and a raw draw `d < max - |skip|`: the loop over `skip` yields
the `d`-th smallest index of `[0, max)` outside `skip`; the result is below `max` and outside
`skip`, larger draws give larger results, and every index of `[0, max)` outside `skip` is the
image of exactly one raw draw below `max - |skip|`. -/
theorem skip_remap_nth_unskipped (max : Nat) (skip : List Nat)
    (hsorted : skip.Pairwise (· < ·)) (hskip : ∀ s ∈ skip, s < max)
    (_hcard : skip.length < max) (d : Nat) (hd : d < max - skip.length) :
    ((List.range max).filter (fun x => decide (x ∉ skip)))[d]? = some (skip_remap skip d)
      ∧ skip_remap skip d < max
      ∧ skip_remap skip d ∉ skip
      ∧ (∀ d2, d < d2 → skip_remap skip d < skip_remap skip d2)
      ∧ (∀ x, x < max → x ∉ skip →
          ∃ d2, d2 < max - skip.length ∧ skip_remap skip d2 = x
            ∧ ∀ d3, skip_remap skip d3 = x → d3 = d2) := by
  have heq := unskipped_eq_map_remap max skip hsorted hskip
  refine ⟨?_, skip_remap_lt_max max skip d hd, skip_remap_not_mem skip d hsorted,
    fun d2 h => skip_remap_strict_mono skip d d2 h, ?_⟩
  · rw [heq, List.getElem?_map, List.getElem?_range hd]
    rfl
  · intro x hx hxs
    have hmem : x ∈ (List.range max).filter (fun x => decide (x ∉ skip)) := by
      rw [List.mem_filter, List.mem_range]
      exact ⟨hx, by simpa using hxs⟩
    rw [heq] at hmem
    obtain ⟨d2, hd2, rfl⟩ := List.mem_map.mp hmem
    exact ⟨d2, List.mem_range.mp hd2, rfl, fun d3 h => skip_remap_injective skip h⟩

theorem skip_remap_nth_unskipped_witness :
    ([2, 5] : List Nat).Pairwise (· < ·) ∧ (∀ s ∈ ([2, 5] : List Nat), s < 8)
    ∧ ([2, 5] : List Nat).length < 8 ∧ 4 < 8 - ([2, 5] : List Nat).length
    ∧ skip_remap [2, 5] 4 = 6
    ∧ ((List.range 8).filter (fun x => decide (x ∉ ([2, 5] : List Nat))))[4]?
        = some (skip_remap [2, 5] 4)
      ∧ skip_remap [2, 5] 4 < 8
      ∧ skip_remap [2, 5] 4 ∉ ([2, 5] : List Nat)
      ∧ (∀ d2, 4 < d2 → skip_remap [2, 5] 4 < skip_remap [2, 5] d2)
      ∧ (∀ x, x < 8 → x ∉ ([2, 5] : List Nat) →
          ∃ d2, d2 < 8 - ([2, 5] : List Nat).length ∧ skip_remap [2, 5] d2 = x
            ∧ ∀ d3, skip_remap [2, 5] d3 = x → d3 = d2) :=
  ⟨by decide, by decide, by decide, by decide, by decide,
    skip_remap_nth_unskipped 8 [2, 5] (by decide) (by decide) (by decide) 4 (by decide)⟩

theorem subsample_with_size_eq {G : Type} (R : Random G) (hR : R.ShufflePermutes)
    (samples : List Nat) (size : Nat) (hsize : size ≤ samples.length)
    (subsamples : List Nat) (g : G) :
    subsample_with_size R samples size subsamples g
      = some ((R.shuffle samples g).1.take size, (R.shuffle samples g).2) := by
  have hlen : (R.shuffle samples g).1.length = samples.length := (hR _ samples g).length_eq
  simp [subsample_with_size, copy, length_resize, hlen, hsize]

theorem sample_from_clusters_step_spec {G : Type} (R : Random G) (hR : R.ShufflePermutes)
    (options : SamplingOptions) (acc : List Nat × G) (c : Nat)
    (hc : c < options.clusters.length) :
    ∃ (seg : List Nat) (g2 : G),
      sample_from_clusters_step R options acc c = some (acc.1 ++ seg, g2)
      ∧ ((options.clusters.getD c []).length ≤ options.samples_per_cluster
            ∧ seg = options.clusters.getD c []
          ∨ options.samples_per_cluster < (options.clusters.getD c []).length
            ∧ seg.length = options.samples_per_cluster
            ∧ seg.Subperm (options.clusters.getD c [])) := by
  have hget : options.clusters[c]? = some (options.clusters.getD c []) := by
    simp [List.getD_eq_getElem?_getD, hc]
  generalize options.clusters.getD c [] = cl at hget
  unfold sample_from_clusters_step
  rw [hget]
  simp only
  by_cases hle : cl.length ≤ options.samples_per_cluster
  · rw [if_pos hle]
    exact ⟨cl, acc.2, rfl, Or.inl ⟨hle, rfl⟩⟩
  · rw [if_neg hle, subsample_with_size_eq R hR cl _ (by omega)]
    refine ⟨_, _, rfl, Or.inr ⟨by omega, ?_, ?_⟩⟩
    · rw [List.length_take, (hR _ cl acc.2).length_eq]
      omega
    · exact (List.take_sublist _ _).subperm.trans (hR _ cl acc.2).subperm

theorem sample_from_clusters_loop {G : Type} (R : Random G) (hR : R.ShufflePermutes)
    (options : SamplingOptions) :
    ∀ (ids : List Nat) (acc : List Nat × G), (∀ c ∈ ids, c < options.clusters.length) →
      ∃ (segments : List (List Nat)) (g2 : G),
        ids.foldlM (sample_from_clusters_step R options) acc
          = some (acc.1 ++ segments.flatten, g2)
        ∧ List.Forall₂ (fun c seg =>
            (options.clusters.getD c []).length ≤ options.samples_per_cluster
              ∧ seg = options.clusters.getD c []
            ∨ options.samples_per_cluster < (options.clusters.getD c []).length
              ∧ seg.length = options.samples_per_cluster
              ∧ seg.Subperm (options.clusters.getD c [])) ids segments
  | [], acc, _ => ⟨[], acc.2, by simp, List.Forall₂.nil⟩
  | c :: ids, acc, hvalid => by
    obtain ⟨seg, g1, hstep, hrel⟩ := sample_from_clusters_step_spec R hR options acc c
      (hvalid c (List.mem_cons_self _ _))
    obtain ⟨segments, g2, hfold, hall⟩ := sample_from_clusters_loop R hR options ids
      (acc.1 ++ seg, g1) (fun c2 h2 => hvalid c2 (List.mem_cons_of_mem _ h2))
    refine ⟨seg :: segments, g2, ?_, List.Forall₂.cons hrel hall⟩
    rw [List.foldlM_cons, hstep]
    simp only [Option.bind_eq_bind, Option.some_bind, hfold]
    simp

theorem segments_length_sum (options : SamplingOptions) :
    ∀ (ids : List Nat) (segments : List (List Nat)),
      List.Forall₂ (fun c seg =>
          (options.clusters.getD c []).length ≤ options.samples_per_cluster
            ∧ seg = options.clusters.getD c []
          ∨ options.samples_per_cluster < (options.clusters.getD c []).length
            ∧ seg.length = options.samples_per_cluster
            ∧ seg.Subperm (options.clusters.getD c [])) ids segments →
      segments.flatten.length
        = (ids.map fun c =>
            min (options.clusters.getD c []).length options.samples_per_cluster).sum
  | [], _, h => by
    cases h
    simp
  | c :: ids, _, h => by
    cases h with
    | cons hrel hall =>
      rw [List.flatten_cons, List.length_append, List.map_cons, List.sum_cons,
        segments_length_sum options ids _ hall]
      congr 1
      rcases hrel with ⟨hle, hseg⟩ | ⟨hlt, hlen, _⟩
      · rw [hseg, Nat.min_eq_left hle]
      · rw [hlen, Nat.min_eq_right (by omega)]

theorem get_samples_in_clusters_loop (options : SamplingOptions) :
    ∀ (ids : List Nat) (acc : List Nat), (∀ c ∈ ids, c < options.clusters.length) →
      ids.foldlM (get_samples_in_clusters_step options) acc
        = some (acc ++ (ids.map fun c => options.clusters.getD c []).flatten)
  | [], acc, _ => by simp
  | c :: ids, acc, hvalid => by
    have hc := hvalid c (List.mem_cons_self _ _)
    have hget : options.clusters[c]? = some (options.clusters.getD c []) := by
      simp [List.getD_eq_getElem?_getD, hc]
    rw [List.foldlM_cons]
    simp only [get_samples_in_clusters_step, hget, Option.bind_eq_bind, Option.some_bind]
    rw [get_samples_in_clusters_loop options ids _
      (fun c2 h2 => hvalid c2 (List.mem_cons_of_mem _ h2))]
    simp

/-- C17. `sample_from_clusters` called with empty `samples`. Without configured clusters
the output is the input id list. With clusters, for valid ids and every outcome of the
shuffle, the call returns the concatenation in input order of one segment per id: the whole
cluster when it has at most `samples_per_cluster` elements, otherwise `samples_per_cluster`
elements taken at distinct positions of the cluster; the output length is the sum of
`min(|cluster|, samples_per_cluster)`. `get_samples_in_clusters` returns the same with every
cluster whole. -/
theorem sample_from_clusters_segments {G : Type} (R : Random G) (hR : R.ShufflePermutes)
    (options : SamplingOptions) (ids : List Nat) (g : G) :
    (options.clusters = [] →
        sample_from_clusters R options ids [] g = some (ids, g)
        ∧ get_samples_in_clusters options ids [] = some ids)
      ∧ (options.clusters ≠ [] → (∀ c ∈ ids, c < options.clusters.length) →
          (∃ (segments : List (List Nat)) (g2 : G),
            sample_from_clusters R options ids [] g = some (segments.flatten, g2)
            ∧ List.Forall₂ (fun c seg =>
                (options.clusters.getD c []).length ≤ options.samples_per_cluster
                  ∧ seg = options.clusters.getD c []
                ∨ options.samples_per_cluster < (options.clusters.getD c []).length
                  ∧ seg.length = options.samples_per_cluster
                  ∧ seg.Subperm (options.clusters.getD c [])) ids segments
            ∧ segments.flatten.length
                = (ids.map fun c =>
                    min (options.clusters.getD c []).length options.samples_per_cluster).sum)
          ∧ get_samples_in_clusters options ids []
              = some (ids.map fun c => options.clusters.getD c []).flatten) := by
  constructor
  · intro hnone
    simp [sample_from_clusters, get_samples_in_clusters, hnone]
  · intro hsome hvalid
    have hne : options.clusters.isEmpty = false := by
      cases hcl : options.clusters with
      | nil => exact absurd hcl hsome
      | cons a l => rfl
    constructor
    · obtain ⟨segments, g2, hfold, hall⟩ :=
        sample_from_clusters_loop R hR options ids ([], g) hvalid
      refine ⟨segments, g2, ?_, hall, segments_length_sum options ids segments hall⟩
      simp only [sample_from_clusters, hne, hfold]
      simp
    · simp only [get_samples_in_clusters, hne]
      rw [get_samples_in_clusters_loop options ids [] hvalid]
      simp

theorem sample_from_clusters_segments_witness :
    tape_random.ShufflePermutes
    ∧ ([[1, 2, 3], [4], [5, 6]] : List (List Nat)) ≠ []
    ∧ (∀ c ∈ ([0, 2, 1, 0] : List Nat), c < ([[1, 2, 3], [4], [5, 6]] : List (List Nat)).length)
    ∧ (
    (([[1, 2, 3], [4], [5, 6]] : List (List Nat)) = [] →
        sample_from_clusters tape_random ⟨[[1, 2, 3], [4], [5, 6]], 2⟩ [0, 2, 1, 0] [] [1, 1] = some ([0, 2, 1, 0], [1, 1])
        ∧ get_samples_in_clusters ⟨[[1, 2, 3], [4], [5, 6]], 2⟩ [0, 2, 1, 0] [] = some [0, 2, 1, 0])
      ∧ (([[1, 2, 3], [4], [5, 6]] : List (List Nat)) ≠ [] → (∀ c ∈ ([0, 2, 1, 0] : List Nat), c < ([[1, 2, 3], [4], [5, 6]] : List (List Nat)).length) →
          (∃ (segments : List (List Nat)) (g2 : List Nat),
            sample_from_clusters tape_random ⟨[[1, 2, 3], [4], [5, 6]], 2⟩ [0, 2, 1, 0] [] [1, 1] = some (segments.flatten, g2)
            ∧ List.Forall₂ (fun c seg =>
                (([[1, 2, 3], [4], [5, 6]] : List (List Nat)).getD c []).length ≤ (2 : Nat)
                  ∧ seg = ([[1, 2, 3], [4], [5, 6]] : List (List Nat)).getD c []
                ∨ (2 : Nat) < (([[1, 2, 3], [4], [5, 6]] : List (List Nat)).getD c []).length
                  ∧ seg.length = (2 : Nat)
                  ∧ seg.Subperm (([[1, 2, 3], [4], [5, 6]] : List (List Nat)).getD c [])) [0, 2, 1, 0] segments
            ∧ segments.flatten.length
                = (([0, 2, 1, 0] : List Nat).map fun c =>
                    min (([[1, 2, 3], [4], [5, 6]] : List (List Nat)).getD c []).length (2 : Nat)).sum)
          ∧ get_samples_in_clusters ⟨[[1, 2, 3], [4], [5, 6]], 2⟩ [0, 2, 1, 0] []
              = some (([0, 2, 1, 0] : List Nat).map fun c => ([[1, 2, 3], [4], [5, 6]] : List (List Nat)).getD c []).flatten)) :=
  ⟨tape_random_shuffle_permutes, by decide, by decide,
    sample_from_clusters_segments tape_random tape_random_shuffle_permutes
      ⟨[[1, 2, 3], [4], [5, 6]], 2⟩ [0, 2, 1, 0] [1, 1]⟩

theorem train_batch_loop {Tree G C S : Type} (E : Environment Tree G C S) (data : Data)
    (options : ForestOptions) (bgs : Int) :
    ∀ (is : List Nat) (s : S) (trees : List Tree) (c : C),
      (match is.foldlM (train_batch_step E data options bgs) (s, trees, c) with
        | .error e => (.error e : Except Failure (List Tree × C))
        | .ok r => .ok (r.2.1, r.2.2))
        = train_with_seeds E data options bgs (batch_seeds E.udist is.length s) trees c
  | [], s, trees, c => by
    simp [batch_seeds, train_with_seeds, pure, Except.pure]
  | i :: is, s, trees, c => by
    rw [List.foldlM_cons, List.length_cons, batch_seeds, train_with_seeds]
    simp only [train_batch_step]
    cases h : train_tree E data ⟨options.sampling_options, E.seed_sampler (E.udist s).1⟩ c
        options bgs with
    | error e => rfl
    | ok t =>
      simp only [bind, Except.bind]
      exact train_batch_loop E data options bgs is _ _ _

theorem train_with_seeds_length {Tree G C S : Type} (E : Environment Tree G C S)
    (data : Data) (options : ForestOptions) (bgs : Int) :
    ∀ (seeds : List Nat) (trees : List Tree) (c : C) (out : List Tree) (c2 : C),
      train_with_seeds E data options bgs seeds trees c = .ok (out, c2) →
      out.length = trees.length + seeds.length
  | [], trees, c, out, c2, h => by
    simp only [train_with_seeds, Except.ok.injEq, Prod.mk.injEq] at h
    rw [← h.1]
    rfl
  | seed :: seeds, trees, c, out, c2, h => by
    rw [train_with_seeds] at h
    cases ht : train_tree E data ⟨options.sampling_options, E.seed_sampler seed⟩ c options
        bgs with
    | error e => rw [ht] at h; cases h
    | ok t =>
      rw [ht] at h
      have := train_with_seeds_length E data options bgs seeds _ _ out c2 h
      simp only [List.length_append, List.length_cons, List.length_nil] at this ⊢
      omega

theorem train_with_seeds_total {Tree G C S : Type} (E : Environment Tree G C S)
    (data : Data) (options : ForestOptions) (bgs : Int)
    (hok : ∀ (seed : Nat) (c : C), ∃ t,
      train_tree E data ⟨options.sampling_options, E.seed_sampler seed⟩ c options bgs = .ok t) :
    ∀ (seeds : List Nat) (trees : List Tree) (c : C),
      ∃ out c2, train_with_seeds E data options bgs seeds trees c = .ok (out, c2)
  | [], trees, c => ⟨trees, c, rfl⟩
  | seed :: seeds, trees, c => by
    obtain ⟨t, ht⟩ := hok seed c
    obtain ⟨out, c2, h⟩ := train_with_seeds_total E data options bgs hok seeds (trees ++ [t.1])
      t.2.2
    exact ⟨out, c2, by rw [train_with_seeds, ht]; exact h⟩

theorem train_batch_eq {Tree G C S : Type} (E : Environment Tree G C S) (start n : Nat)
    (data : Data) (options : ForestOptions) (c : C) :
    train_batch E start n data options c
      = train_with_seeds E data options (batch_block_group_size options)
          (batch_seeds E.udist n (E.seed_batch ((options.random_seed + start) % 2 ^ 64))) [] c := by
  have h := train_batch_loop E data options (batch_block_group_size options) (List.range n)
    (E.seed_batch ((options.random_seed + start) % 2 ^ 64)) [] c
  rw [List.length_range] at h
  exact h

theorem batch_seeds_length {S : Type} (udist : S → Nat × S) :
    ∀ (n : Nat) (s : S), (batch_seeds udist n s).length = n
  | 0, _ => rfl
  | n + 1, s => by simp [batch_seeds, batch_seeds_length udist n]

theorem batch_seeds_take {S : Type} (udist : S → Nat × S) :
    ∀ (n m : Nat) (s : S), n ≤ m → batch_seeds udist n s = (batch_seeds udist m s).take n
  | 0, _, _, _ => by simp [batch_seeds]
  | n + 1, 0, _, h => by omega
  | n + 1, m + 1, s, h => by
    simp only [batch_seeds, List.take_succ_cons]
    rw [batch_seeds_take udist n m _ (by omega)]

/-- C20. `train_batch(start, n, data, options)` trains, in order, one tree per seed of the
first `n` draws of `udist` from the generator seeded with `random_seed + start`: the sampler
of the `i`-th tree is seeded with the `i`-th draw. A batch that returns holds exactly `n`
trees, and it returns whenever every `train_tree` call does. The seeds depend on
`random_seed` and `start` through their sum only, and the seeds of a batch of length `n` are
the first `n` seeds of any longer batch with the same sum. -/
theorem train_batch_seeds_in_order {Tree G C S : Type} (E : Environment Tree G C S)
    (start n : Nat) (data : Data) (options : ForestOptions) (c : C) :
    train_batch E start n data options c
        = train_with_seeds E data options (batch_block_group_size options)
            (batch_seeds E.udist n (E.seed_batch ((options.random_seed + start) % 2 ^ 64)))
            [] c
      ∧ (batch_seeds E.udist n
          (E.seed_batch ((options.random_seed + start) % 2 ^ 64))).length = n
      ∧ (∀ trees c2, train_batch E start n data options c = .ok (trees, c2) →
          trees.length = n)
      ∧ ((∀ (seed : Nat) (c1 : C), ∃ t,
            train_tree E data ⟨options.sampling_options, E.seed_sampler seed⟩ c1 options
              (batch_block_group_size options) = .ok t) →
          ∃ trees c2, train_batch E start n data options c = .ok (trees, c2)
            ∧ trees.length = n)
      ∧ (∀ random_seed2 start2 : Nat, random_seed2 + start2 = options.random_seed + start →
          batch_seeds E.udist n (E.seed_batch ((random_seed2 + start2) % 2 ^ 64))
            = batch_seeds E.udist n (E.seed_batch ((options.random_seed + start) % 2 ^ 64)))
      ∧ (∀ m : Nat, n ≤ m →
          batch_seeds E.udist n (E.seed_batch ((options.random_seed + start) % 2 ^ 64))
            = (batch_seeds E.udist m
                (E.seed_batch ((options.random_seed + start) % 2 ^ 64))).take n) := by
  have heq := train_batch_eq E start n data options c
  have hlen : ∀ trees c2, train_batch E start n data options c = .ok (trees, c2) →
      trees.length = n := by
    intro trees c2 h
    rw [heq] at h
    have := train_with_seeds_length E data options _ _ [] c trees c2 h
    rw [batch_seeds_length] at this
    simpa using this
  refine ⟨heq, batch_seeds_length _ _ _, hlen, ?_, ?_, ?_⟩
  · intro hok
    obtain ⟨out, c2, h⟩ := train_with_seeds_total E data options _ hok
      (batch_seeds E.udist n (E.seed_batch ((options.random_seed + start) % 2 ^ 64))) [] c
    exact ⟨out, c2, by rw [heq]; exact h, hlen out c2 (by rw [heq]; exact h)⟩
  · intro random_seed2 start2 hsum
    rw [hsum]
  · intro m hm
    exact batch_seeds_take E.udist n m _ hm

theorem sample_clusters_blocks_eq {C : Type} (pow : ℚ → ℚ → ℚ) (hpow : PowFaithful pow)
    (rand : C → Nat × C) (sopts : SamplingOptions) (num_rows : Nat) (hrows : 1 ≤ num_rows)
    (hrows53 : num_rows < 2 ^ 53) (hclusters53 : sopts.clusters.length < 2 ^ 53)
    (fraction : ℚ) (bgs : Int) (hbgs : 1 ≤ bgs) (c : C) :
    ∃ (block_size : Nat) (starts : List Nat) (c2 : C),
      sample_clusters_blocks pow rand sopts num_rows fraction [] [] bgs c
        = some ((starts.map fun s => List.range' s block_size).flatten,
                starts.map (fun s => List.range' s block_size), c2)
      ∧ 1 ≤ block_size
      ∧ starts.length = ceil_mul block_size fraction := by
  have hg : 1 ≤ bgs.toNat := by omega
  have hcast : ((bgs.toNat : Nat) : Int) = bgs := Int.toNat_of_nonneg (by omega)
  have key : ∀ n_all : Nat, 1 ≤ n_all → n_all < 2 ^ 53 →
      ∃ (block_size : Nat) (starts : List Nat) (c2 : C),
        block_and_split pow rand [] n_all fraction [] bgs c
          = some ((starts.map fun s => List.range' s block_size).flatten,
                  starts.map (fun s => List.range' s block_size), c2)
        ∧ 1 ≤ block_size
        ∧ starts.length = ceil_mul block_size fraction := by
    intro n_all hn hn53
    obtain ⟨hnum, hb1, hb2⟩ := block_num_of_faithful pow hpow n_all hn hn53 bgs.toNat hg
    rw [hcast] at hnum
    obtain ⟨starts, c2, heq, hcount, _⟩ :=
      block_and_split_eq pow rand [] n_all fraction bgs c _ hnum hb1
    exact ⟨_, starts, c2, heq, Nat.div_pos hb2 hb1, hcount⟩
  unfold sample_clusters_blocks sample_blocks
  cases hcl : sopts.clusters with
  | nil =>
    simp only [List.isEmpty_nil, if_true]
    exact key num_rows hrows hrows53
  | cons a l =>
    simp only [List.isEmpty_cons, List.length_cons]
    rw [hcl] at hclusters53
    exact key (l.length + 1) (by omega) (by simpa using hclusters53)

theorem train_tree_ok {Tree G C S : Type} (E : Environment Tree G C S)
    (hpow : PowFaithful E.pow) (hgrow : E.GrowerNeverFails) (data : Data)
    (hrows : 1 ≤ data.num_rows) (hrows53 : data.num_rows < 2 ^ 53)
    (sampler : RandomSampler G) (hclusters53 : sampler.options.clusters.length < 2 ^ 53)
    (c : C) (options : ForestOptions) (bgs : Int) (hbgs : 1 ≤ bgs) :
    ∃ t, train_tree E data sampler c options bgs = .ok t := by
  obtain ⟨bs, starts, c2, heq, _, _⟩ := sample_clusters_blocks_eq E.pow hpow E.rand
    sampler.options data.num_rows hrows hrows53 hclusters53 options.sample_fraction bgs hbgs c
  obtain ⟨t, ht⟩ := hgrow data sampler c2
    ((starts.map fun s => List.range' s bs).flatten) options.tree_options
    (starts.map fun s => List.range' s bs)
  exact ⟨t, by simp only [train_tree, heq, ht]⟩

theorem train_batch_ok {Tree G C S : Type} (E : Environment Tree G C S)
    (hpow : PowFaithful E.pow) (hgrow : E.GrowerNeverFails) (data : Data)
    (hrows : 1 ≤ data.num_rows) (hrows53 : data.num_rows < 2 ^ 53)
    (options : ForestOptions)
    (hclusters53 : options.sampling_options.clusters.length < 2 ^ 53)
    (hbgs : 1 ≤ batch_block_group_size options)
    (start n : Nat) (c : C) :
    ∃ trees c2, train_batch E start n data options c = .ok (trees, c2) ∧ trees.length = n := by
  have hok : ∀ (seed : Nat) (c1 : C), ∃ t,
      train_tree E data ⟨options.sampling_options, E.seed_sampler seed⟩ c1 options
        (batch_block_group_size options) = .ok t :=
    fun seed c1 => train_tree_ok E hpow hgrow data hrows hrows53 _ hclusters53 c1 options _ hbgs
  obtain ⟨out, c2, h⟩ := train_with_seeds_total E data options _ hok
    (batch_seeds E.udist n (E.seed_batch ((options.random_seed + start) % 2 ^ 64))) [] c
  have heq := train_batch_eq E start n data options c
  refine ⟨out, c2, by rw [heq]; exact h, ?_⟩
  have := train_with_seeds_length E data options _ _ [] c out c2 h
  rw [batch_seeds_length] at this
  simpa using this

theorem completed_futures_fold_length {α : Type} (tasks : List α) :
    ∀ (completion : List Nat) (futures : List (Option α)),
      (completion.foldl (fun futures i => futures.set i tasks[i]?) futures).length
        = futures.length
  | [], _ => rfl
  | i :: completion, futures => by
    rw [List.foldl_cons, completed_futures_fold_length tasks completion, List.length_set]

theorem completed_futures_fold_get {α : Type} (tasks : List α) :
    ∀ (completion : List Nat) (futures : List (Option α)) (j : Nat), j < futures.length →
      (completion.foldl (fun futures i => futures.set i tasks[i]?) futures)[j]?
        = if j ∈ completion then some tasks[j]? else futures[j]?
  | [], _, _, _ => by simp
  | i :: completion, futures, j, hj => by
    rw [List.foldl_cons, completed_futures_fold_get tasks completion _ j (by simpa using hj)]
    by_cases hmem : j ∈ completion
    · simp [hmem]
    · rw [if_neg hmem, List.getElem?_set]
      by_cases hij : i = j
      · subst hij
        simp [hj]
      · have hji : ¬ j = i := fun h => hij h.symm
        simp [hij, hmem, hji]

theorem completed_futures_of_perm {α : Type} (tasks : List α) (completion : List Nat)
    (hperm : completion.Perm (List.range tasks.length)) :
    completed_futures tasks completion = tasks.map some := by
  apply List.ext_getElem?
  intro j
  unfold completed_futures
  by_cases hj : j < tasks.length
  · rw [completed_futures_fold_get tasks completion _ j (by simpa using hj),
      if_pos (hperm.mem_iff.mpr (List.mem_range.mpr hj))]
    simp [List.getElem?_eq_getElem hj]
  · rw [List.getElem?_eq_none (by rw [completed_futures_fold_length]; simpa using hj),
      List.getElem?_eq_none (by simpa using hj)]

theorem completed_futures_mem {α : Type} (tasks : List α) (completion : List Nat)
    (x : Option α) (hx : x ∈ completed_futures tasks completion) :
    x = none ∨ ∃ t ∈ tasks, x = some t := by
  obtain ⟨j, hj, hget⟩ := List.getElem_of_mem hx
  have hj2 : j < (List.replicate tasks.length (none : Option α)).length := by
    unfold completed_futures at hj
    rwa [completed_futures_fold_length] at hj
  have h := completed_futures_fold_get tasks completion _ j hj2
  unfold completed_futures at hget hj
  rw [List.getElem?_eq_getElem hj, hget] at h
  by_cases hmem : j ∈ completion
  · rw [if_pos hmem] at h
    have hx2 : x = tasks[j]? := Option.some.inj h
    cases ht : tasks[j]? with
    | none => exact Or.inl (by rw [hx2, ht])
    | some t => exact Or.inr ⟨t, List.getElem?_mem ht, by rw [hx2, ht]⟩
  · rw [if_neg hmem] at h
    simp at hj2
    simp [hj2] at h
    exact Or.inl h

theorem collect_all_ok {Tree : Type} :
    ∀ (results : List (List Tree)) (trees : List Tree),
      ((results.map fun r => some (Except.ok r : Except Failure (List Tree))).foldlM
        collect_step trees) = .ok (trees ++ results.flatten)
  | [], trees => by simp [pure, Except.pure]
  | r :: results, trees => by
    rw [List.map_cons, List.foldlM_cons]
    simp only [collect_step, bind, Except.bind]
    rw [collect_all_ok results]
    simp

theorem range_sizes_sum :
    ∀ (r : List Nat), r.Pairwise (· ≤ ·) → ∀ a b : Nat, r.head? = some a →
      r.getLast? = some b →
      ((List.range (r.length - 1)).map
          fun i => wrap_sub (r.getD (i + 1) 0) (r.getD i 0)).sum = b - a
        ∧ a ≤ b
  | [], _, a, b, h, _ => by simp at h
  | [x], _, a, b, ha, hb => by
    simp only [List.head?_cons, Option.some.injEq] at ha
    simp only [List.getLast?_singleton, Option.some.injEq] at hb
    subst ha hb
    simp
  | x :: y :: rest, hp, a, b, ha, hb => by
    simp only [List.head?_cons, Option.some.injEq] at ha
    subst ha
    obtain ⟨hx, hrest⟩ := List.pairwise_cons.mp hp
    have hxy : x ≤ y := hx y (List.mem_cons_self _ _)
    have hb2 : (y :: rest).getLast? = some b := by
      rw [← hb, List.getLast?_cons_cons]
    obtain ⟨ih, hyb⟩ := range_sizes_sum (y :: rest) hrest y b rfl hb2
    constructor
    · simp only [List.length_cons, Nat.add_sub_cancel] at ih ⊢
      rw [List.range_succ_eq_map, List.map_cons, List.sum_cons, List.map_map]
      have hf : ((fun i => wrap_sub ((x :: y :: rest).getD (i + 1) 0)
            ((x :: y :: rest).getD i 0)) ∘ Nat.succ)
          = fun i => wrap_sub ((y :: rest).getD (i + 1) 0) ((y :: rest).getD i 0) := by
        funext i
        simp
      rw [hf, ih]
      simp only [List.getD_cons_succ, List.getD_cons_zero, Nat.zero_add, wrap_sub, if_pos hxy]
      omega
    · omega

theorem thread_ranges_facts {Tree G C S : Type} (E : Environment Tree G C S)
    (hsplit : SplitsIntoRanges E.split_sequence) (options : ForestOptions)
    (hgroups : 1 ≤ options.num_trees / options.ci_group_size)
    (h32 : options.num_trees < 2 ^ 32) (hthreads : 1 ≤ options.num_threads) :
    (thread_ranges_of E options).head? = some 0
      ∧ (thread_ranges_of E options).getLast?
          = some (options.num_trees / options.ci_group_size)
      ∧ (thread_ranges_of E options).Pairwise (· ≤ ·)
      ∧ (thread_ranges_of E options).length ≤ options.num_threads + 1
      ∧ (thread_ranges_of E options).length ≠ 0 := by
  have hq : options.num_trees / options.ci_group_size < 2 ^ 32 :=
    Nat.lt_of_le_of_lt (Nat.div_le_self _ _) h32
  have hw : wrap_sub32 ((options.num_trees / options.ci_group_size) % 2 ^ 32) 1
      = options.num_trees / options.ci_group_size - 1 := by
    rw [Nat.mod_eq_of_lt hq]
    unfold wrap_sub32
    rw [if_pos hgroups]
  obtain ⟨h1, h2, h3, h4⟩ := hsplit 0 (options.num_trees / options.ci_group_size - 1)
    options.num_threads (Nat.zero_le _) hthreads
  unfold thread_ranges_of
  rw [hw]
  refine ⟨h1, ?_, h3, h4, ?_⟩
  · rw [h2]
    congr 1
    omega
  · intro h0
    rw [List.length_eq_zero] at h0
    rw [h0] at h1
    simp at h1

theorem of_exact_zero : Double.of_exact 0 = .finite 0 := by
  unfold Double.of_exact
  rw [round_double_zero]
  norm_num

theorem of_exact_natCast (n : Nat) (hn : n < 2 ^ 53) :
    Double.of_exact (n : ℚ) = .finite (n : ℚ) := by
  unfold Double.of_exact
  rw [round_double_natCast n hn]
  have h1 : (n : ℚ) < 2 ^ 53 := by exact_mod_cast hn
  have h0 : (0 : ℚ) ≤ (n : ℚ) := Nat.cast_nonneg n
  rw [if_neg (by
    have : (2 : ℚ) ^ 53 ≤ 2 ^ 1024 := pow_le_pow_right₀ (by norm_num) (by norm_num)
    linarith), if_neg (by
    have : (0 : ℚ) < 2 ^ 1024 := by positivity
    linarith)]

theorem lt_one_of_exact_of_one_le (q : ℚ) (h : 1 ≤ q) : (Double.of_exact q).lt_one = false := by
  have hr := one_le_round_double q h
  unfold Double.of_exact
  split
  · rfl
  · split
    · exfalso
      have : (0 : ℚ) < 2 ^ 1024 := by positivity
      linarith
    · simp only [Double.lt_one, decide_eq_false_iff_not, not_lt]
      exact hr

theorem lt_one_of_exact_of_le_half (q : ℚ) (h0 : 0 ≤ q) (h1 : q ≤ 1 / 2) :
    (Double.of_exact q).lt_one = true := by
  have hr := round_double_le_half q h0 h1
  have hr0 := round_double_nonneg q h0
  have hbig : (1 : ℚ) ≤ 2 ^ 1024 := one_le_pow₀ (by norm_num)
  unfold Double.of_exact
  rw [if_neg (by linarith), if_neg (by linarith)]
  simp only [Double.lt_one, decide_eq_true_eq]
  linarith

theorem train_trees_eq_collect {Tree G C S : Type} (E : Environment Tree G C S)
    (data : Data) (options : ForestOptions) (hfeasible : Feasible data options)
    (hci : 1 ≤ options.ci_group_size)
    (hlen : (thread_ranges_of E options).length ≠ 0)
    (crand : Nat → C) (completion : List Nat)
    (hcomplete : completion.Perm (List.range ((thread_ranges_of E options).length - 1))) :
    train_trees E data options crand completion
      = (((List.range ((thread_ranges_of E options).length - 1)).map
            (batch_task E data options (thread_ranges_of E options) crand)).map
          some).foldlM collect_step [] := by
  obtain ⟨hf1, hf2⟩ := hfeasible
  unfold sample_product at hf1 hf2
  have h1 : ¬ (Double.mul (Double.of_exact data.num_rows)
      (.finite options.sample_fraction)).lt_one = true := by
    rw [hf1]
    simp
  have h2 : ¬ (options.honesty = true
      ∧ ((Double.mul (Double.mul (Double.of_exact data.num_rows)
              (.finite options.sample_fraction))
            (.finite options.tree_options.honesty_fraction)).lt_one = true
        ∨ (Double.mul (Double.mul (Double.of_exact data.num_rows)
              (.finite options.sample_fraction))
            (Double.of_exact (1 - options.tree_options.honesty_fraction))).lt_one = true)) := by
    rintro ⟨hh, hlt | hlt⟩
    · rw [(hf2 hh).1] at hlt
      cases hlt
    · rw [(hf2 hh).2] at hlt
      cases hlt
  have h3 : ¬ options.ci_group_size = 0 := by omega
  unfold thread_ranges_of at hlen hcomplete ⊢
  unfold train_trees
  simp only [if_neg h1, if_neg h2, if_neg h3, if_neg hlen]
  rw [completed_futures_of_perm _ _ (by simpa using hcomplete)]

theorem getD_le_getD_succ (r : List Nat) (hp : r.Pairwise (· ≤ ·)) (i : Nat)
    (hi : i + 1 < r.length) : r.getD i 0 ≤ r.getD (i + 1) 0 := by
  have h := List.pairwise_iff_getElem.mp hp i (i + 1) (by omega) hi (Nat.lt_succ_self i)
  simpa [List.getD_eq_getElem?_getD, List.getElem?_eq_getElem hi,
    List.getElem?_eq_getElem (show i < r.length by omega)] using h

theorem batch_task_eq {Tree G C S : Type} (E : Environment Tree G C S) (data : Data)
    (options : ForestOptions) (r : List Nat) (hp : r.Pairwise (· ≤ ·)) (crand : Nat → C)
    (i : Nat) (hi : i + 1 < r.length) :
    batch_task E data options r crand i
      = (train_batch E (r.getD i 0) (r.getD (i + 1) 0 - r.getD i 0) data options
          (crand i)).map Prod.fst := by
  have hle := getD_le_getD_succ r hp i hi
  simp only [batch_task, wrap_sub, if_pos hle]
  cases train_batch E (r.getD i 0) (r.getD (i + 1) 0 - r.getD i 0) data options (crand i) with
  | error e => rfl
  | ok t => rfl

/-- C12. Group partition and order in `train_trees`, for a feasible configuration with at
least one group and one thread, a `split_sequence` that partitions as the specification says,
and every order in which the batches may complete: batch `i` is
`train_batch(thread_ranges[i], thread_ranges[i + 1] - thread_ranges[i], ...)`, there are at
most `num_threads` batches, their sizes sum to `num_groups`, the result of `train_trees` is
the collection of the batch results in ascending range order (the concatenation of their
trees when all succeed), and it is the same for every completion order. -/
theorem train_trees_ranges_in_order {Tree G C S : Type} (E : Environment Tree G C S)
    (hsplit : SplitsIntoRanges E.split_sequence) (data : Data) (options : ForestOptions)
    (hfeasible : Feasible data options) (hci : 1 ≤ options.ci_group_size)
    (hgroups : 1 ≤ options.num_trees / options.ci_group_size)
    (h32 : options.num_trees < 2 ^ 32) (hthreads : 1 ≤ options.num_threads)
    (crand : Nat → C) (completion : List Nat)
    (hcomplete : completion.Perm (List.range ((thread_ranges_of E options).length - 1))) :
    ((List.range ((thread_ranges_of E options).length - 1)).map
        fun i => (thread_ranges_of E options).getD (i + 1) 0
          - (thread_ranges_of E options).getD i 0).sum
        = options.num_trees / options.ci_group_size
      ∧ (thread_ranges_of E options).length - 1 ≤ options.num_threads
      ∧ (∀ i, i < (thread_ranges_of E options).length - 1 →
          batch_task E data options (thread_ranges_of E options) crand i
            = (train_batch E ((thread_ranges_of E options).getD i 0)
                ((thread_ranges_of E options).getD (i + 1) 0
                  - (thread_ranges_of E options).getD i 0) data options (crand i)).map
                Prod.fst)
      ∧ train_trees E data options crand completion
          = (((List.range ((thread_ranges_of E options).length - 1)).map
                (batch_task E data options (thread_ranges_of E options) crand)).map
              some).foldlM collect_step []
      ∧ (∀ results : List (List Tree),
          results.length = (thread_ranges_of E options).length - 1 →
          (∀ i, i < (thread_ranges_of E options).length - 1 → ∃ c2,
            train_batch E ((thread_ranges_of E options).getD i 0)
              ((thread_ranges_of E options).getD (i + 1) 0
                - (thread_ranges_of E options).getD i 0) data options (crand i)
              = .ok (results.getD i [], c2)) →
          train_trees E data options crand completion = .ok results.flatten)
      ∧ (∀ completion2 : List Nat,
          completion2.Perm (List.range ((thread_ranges_of E options).length - 1)) →
          train_trees E data options crand completion2
            = train_trees E data options crand completion) := by
  obtain ⟨hhead, hlast, hp, hcount, hne⟩ :=
    thread_ranges_facts E hsplit options hgroups h32 hthreads
  have hsum := (range_sizes_sum _ hp 0 _ hhead hlast).1
  have hcollect := train_trees_eq_collect E data options hfeasible hci hne crand
  have htask : ∀ i, i < (thread_ranges_of E options).length - 1 →
      batch_task E data options (thread_ranges_of E options) crand i
        = (train_batch E ((thread_ranges_of E options).getD i 0)
            ((thread_ranges_of E options).getD (i + 1) 0
              - (thread_ranges_of E options).getD i 0) data options (crand i)).map
            Prod.fst :=
    fun i hi => batch_task_eq E data options _ hp crand i (by omega)
  refine ⟨?_, by omega, htask, hcollect completion hcomplete, ?_, ?_⟩
  · rw [Nat.sub_zero] at hsum
    rw [← hsum]
    apply congrArg
    apply List.map_congr_left
    intro i hi
    have hle := getD_le_getD_succ _ hp i (by have := List.mem_range.mp hi; omega)
    simp only [wrap_sub, if_pos hle]
  · intro results hlen hall
    rw [hcollect completion hcomplete]
    have htasks : (List.range ((thread_ranges_of E options).length - 1)).map
        (batch_task E data options (thread_ranges_of E options) crand)
        = results.map fun r => (Except.ok r : Except Failure (List Tree)) := by
      apply List.ext_getElem
      · simp [hlen]
      · intro i h1 h2
        simp only [List.length_map, List.length_range] at h1
        obtain ⟨c2, hb⟩ := hall i h1
        simp only [List.getElem_map, List.getElem_range]
        rw [htask i h1, hb]
        simp [Except.map, List.getD_eq_getElem?_getD, List.getElem?_eq_getElem (hlen ▸ h1)]
    rw [htasks, List.map_map]
    have := collect_all_ok results ([] : List Tree)
    simpa using this
  · intro completion2 hcomplete2
    rw [hcollect completion hcomplete, hcollect completion2 hcomplete2]

theorem example_split_sequence_splits : SplitsIntoRanges example_split_sequence := by
  intro start stop num_parts hle hparts
  have hk : 1 ≤ min num_parts (stop - start + 1) := by
    rw [Nat.le_min]
    exact ⟨hparts, by omega⟩
  unfold example_split_sequence
  simp only
  generalize hkdef : min num_parts (stop - start + 1) = k at hk
  have hkle : k ≤ num_parts := by rw [← hkdef]; exact Nat.min_le_left _ _
  refine ⟨?_, ?_, ?_, ?_⟩
  · rw [List.range_succ_eq_map]
    simp
  · have hlast : start + k * (stop - start + 1) / k = stop + 1 := by
      rw [Nat.mul_div_cancel_left _ (by omega)]
      omega
    rw [List.range_succ, List.map_append, List.map_singleton, List.getLast?_append,
      List.getLast?_singleton, hlast]
    rfl
  · rw [List.pairwise_map]
    apply (List.pairwise_lt_range (k + 1)).imp
    intro a b hab
    apply Nat.add_le_add_left
    exact Nat.div_le_div_right (Nat.mul_le_mul_right _ (Nat.le_of_lt hab))
  · simp only [List.length_map, List.length_range]
    omega

theorem example_grower_never_fails : example_environment.GrowerNeverFails := by
  intro data sampler c rows tree_options blocks
  exact ⟨_, rfl⟩

theorem example_feasible : Feasible example_data example_options := by
  have hp : sample_product example_data example_options = Double.of_exact 50 := by
    unfold sample_product
    simp only [example_data, example_options]
    rw [of_exact_natCast 100 (by norm_num)]
    simp only [Double.mul]
    norm_num
  constructor
  · rw [hp]
    exact lt_one_of_exact_of_one_le 50 (by norm_num)
  · intro h
    simp [example_options] at h

theorem example_thread_ranges : thread_ranges_of example_environment example_options = [0, 2, 5] := by
  decide

theorem train_trees_concat {Tree G C S : Type} (E : Environment Tree G C S)
    (data : Data) (options : ForestOptions) (hfeasible : Feasible data options)
    (hci : 1 ≤ options.ci_group_size)
    (hp : (thread_ranges_of E options).Pairwise (· ≤ ·))
    (hne : (thread_ranges_of E options).length ≠ 0)
    (crand : Nat → C) (completion : List Nat)
    (hcomplete : completion.Perm (List.range ((thread_ranges_of E options).length - 1)))
    (results : List (List Tree))
    (hlen : results.length = (thread_ranges_of E options).length - 1)
    (hall : ∀ i, i < (thread_ranges_of E options).length - 1 → ∃ c2,
      train_batch E ((thread_ranges_of E options).getD i 0)
        ((thread_ranges_of E options).getD (i + 1) 0
          - (thread_ranges_of E options).getD i 0) data options (crand i)
        = .ok (results.getD i [], c2)) :
    train_trees E data options crand completion = .ok results.flatten := by
  rw [train_trees_eq_collect E data options hfeasible hci hne crand completion hcomplete]
  have htasks : (List.range ((thread_ranges_of E options).length - 1)).map
      (batch_task E data options (thread_ranges_of E options) crand)
      = results.map fun r => (Except.ok r : Except Failure (List Tree)) := by
    apply List.ext_getElem
    · simp [hlen]
    · intro i h1 h2
      simp only [List.length_map, List.length_range] at h1
      obtain ⟨c2, hb⟩ := hall i h1
      simp only [List.getElem_map, List.getElem_range]
      rw [batch_task_eq E data options _ hp crand i (by omega), hb]
      simp [Except.map, List.getD_eq_getElem?_getD, List.getElem?_eq_getElem (hlen ▸ h1)]
  rw [htasks, List.map_map]
  have := collect_all_ok results ([] : List Tree)
  simpa using this

theorem feasible_rows (data : Data) (options : ForestOptions)
    (hfeasible : Feasible data options) : 1 ≤ data.num_rows := by
  by_contra h
  have h0 : data.num_rows = 0 := by omega
  have h1 := hfeasible.1
  unfold sample_product at h1
  rw [h0] at h1
  simp only [Nat.cast_zero, of_exact_zero, Double.mul, zero_mul, Double.lt_one] at h1
  simp at h1

theorem train_trees_ok_length {Tree G C S : Type} (E : Environment Tree G C S)
    (hsplit : SplitsIntoRanges E.split_sequence) (hpow : PowFaithful E.pow)
    (hgrow : E.GrowerNeverFails)
    (data : Data) (hrows53 : data.num_rows < 2 ^ 53) (options : ForestOptions)
    (hclusters53 : options.sampling_options.clusters.length < 2 ^ 53)
    (hfeasible : Feasible data options)
    (hci : 1 ≤ options.ci_group_size)
    (hgroups : 1 ≤ options.num_trees / options.ci_group_size)
    (h32 : options.num_trees < 2 ^ 32) (hthreads : 1 ≤ options.num_threads)
    (hbgs : 1 ≤ batch_block_group_size options)
    (crand : Nat → C) (completion : List Nat)
    (hcomplete : completion.Perm (List.range ((thread_ranges_of E options).length - 1))) :
    ∃ trees, train_trees E data options crand completion = .ok trees
      ∧ trees.length = options.num_trees / options.ci_group_size := by
  obtain ⟨hhead, hlast, hp, _, hne⟩ :=
    thread_ranges_facts E hsplit options hgroups h32 hthreads
  have hrows := feasible_rows data options hfeasible
  have hbatch : ∀ i : Nat, ∃ trees c2,
      train_batch E ((thread_ranges_of E options).getD i 0)
        ((thread_ranges_of E options).getD (i + 1) 0
          - (thread_ranges_of E options).getD i 0) data options (crand i) = .ok (trees, c2)
      ∧ trees.length = (thread_ranges_of E options).getD (i + 1) 0
          - (thread_ranges_of E options).getD i 0 :=
    fun i => train_batch_ok E hpow hgrow data hrows hrows53 options hclusters53 hbgs _ _
      (crand i)
  choose batch_trees batch_c hok hsize using hbatch
  have hresults : ((List.range ((thread_ranges_of E options).length - 1)).map
      batch_trees).length = (thread_ranges_of E options).length - 1 := by simp
  refine ⟨_, train_trees_concat E data options hfeasible hci hp hne crand completion hcomplete
    ((List.range ((thread_ranges_of E options).length - 1)).map batch_trees) hresults ?_, ?_⟩
  · intro i hi
    refine ⟨batch_c i, ?_⟩
    rw [hok i]
    simp [List.getD_eq_getElem?_getD, hi]
  · have hsum := (range_sizes_sum _ hp 0 _ hhead hlast).1
    rw [Nat.sub_zero] at hsum
    rw [← hsum, List.length_flatten, List.map_map]
    apply congrArg
    apply List.map_congr_left
    intro i hi
    have hle := getD_le_getD_succ _ hp i (by have := List.mem_range.mp hi; omega)
    simp only [Function.comp, hsize i, wrap_sub, if_pos hle]

theorem train_trees_ranges_in_order_witness :
    SplitsIntoRanges example_environment.split_sequence
    ∧ Feasible example_data example_options
    ∧ 1 ≤ example_options.ci_group_size
    ∧ 1 ≤ example_options.num_trees / example_options.ci_group_size
    ∧ example_options.num_trees < 2 ^ 32
    ∧ 1 ≤ example_options.num_threads
    ∧ ([1, 0] : List Nat).Perm
        (List.range ((thread_ranges_of example_environment example_options).length - 1))
    ∧ thread_ranges_of example_environment example_options = [0, 2, 5]
    ∧ (
    ((List.range ((thread_ranges_of example_environment example_options).length - 1)).map
        fun i => (thread_ranges_of example_environment example_options).getD (i + 1) 0
          - (thread_ranges_of example_environment example_options).getD i 0).sum
        = example_options.num_trees / example_options.ci_group_size
      ∧ (thread_ranges_of example_environment example_options).length - 1 ≤ example_options.num_threads
      ∧ (∀ i, i < (thread_ranges_of example_environment example_options).length - 1 →
          batch_task example_environment example_data example_options (thread_ranges_of example_environment example_options) (fun _ => []) i
            = (train_batch example_environment ((thread_ranges_of example_environment example_options).getD i 0)
                ((thread_ranges_of example_environment example_options).getD (i + 1) 0
                  - (thread_ranges_of example_environment example_options).getD i 0) example_data example_options []).map
                Prod.fst)
      ∧ train_trees example_environment example_data example_options (fun _ => []) [1, 0]
          = (((List.range ((thread_ranges_of example_environment example_options).length - 1)).map
                (batch_task example_environment example_data example_options (thread_ranges_of example_environment example_options) (fun _ => []))).map
              some).foldlM collect_step []
      ∧ (∀ results : List (List (List Nat × List (List Nat))),
          results.length = (thread_ranges_of example_environment example_options).length - 1 →
          (∀ i, i < (thread_ranges_of example_environment example_options).length - 1 → ∃ c2,
            train_batch example_environment ((thread_ranges_of example_environment example_options).getD i 0)
              ((thread_ranges_of example_environment example_options).getD (i + 1) 0
                - (thread_ranges_of example_environment example_options).getD i 0) example_data example_options []
              = .ok (results.getD i [], c2)) →
          train_trees example_environment example_data example_options (fun _ => []) [1, 0] = .ok results.flatten)
      ∧ (∀ completion2 : List Nat,
          completion2.Perm (List.range ((thread_ranges_of example_environment example_options).length - 1)) →
          train_trees example_environment example_data example_options (fun _ => []) completion2
            = train_trees example_environment example_data example_options (fun _ => []) [1, 0])) :=
  ⟨example_split_sequence_splits, example_feasible, by decide, by decide, by decide,
    by decide, by decide, example_thread_ranges,
    train_trees_ranges_in_order example_environment example_split_sequence_splits
      example_data example_options example_feasible (by decide) (by decide) (by decide)
      (by decide) (fun _ => []) [1, 0] (by decide)⟩

theorem train_of_train_trees {Tree G C S : Type} (E : Environment Tree G C S) (data : Data)
    (options : ForestOptions) (crand : Nat → C) (completion : List Nat) (trees : List Tree)
    (h : train_trees E data options crand completion = .ok trees) :
    train E data options crand completion
      = .ok ⟨trees, wrap_sub data.num_cols data.disallowed_split_variables.length,
          options.ci_group_size⟩ := by
  unfold train
  rw [h]

/-- C11. For 10 trees in confidence-interval groups of 2 on 2 threads, a feasible
configuration with a tree grower that never fails: there are 5 groups, every batch trains one
tree per group (`train_batch` calls `train_tree`, never `train_ci_group`), and the forest that
`train` returns holds 5 trees, not 10, while it records a group size of 2. -/
theorem train_returns_one_tree_per_group :
    example_options.num_trees = 10 ∧ example_options.ci_group_size = 2
      ∧ example_options.num_threads = 2
      ∧ Feasible example_data example_options
      ∧ example_environment.GrowerNeverFails
      ∧ ∃ forest, train example_environment example_data example_options (fun _ => []) [0, 1]
            = .ok forest
          ∧ forest.trees.length = 5 ∧ forest.ci_group_size = 2 := by
  obtain ⟨trees, hok, hlen⟩ := train_trees_ok_length example_environment
    example_split_sequence_splits example_pow_faithful example_grower_never_fails
    example_data (by decide) example_options (by decide)
    example_feasible (by decide) (by decide) (by decide) (by decide) (by decide)
    (fun _ => []) [0, 1] (by decide)
  exact ⟨rfl, rfl, rfl, example_feasible, example_grower_never_fails,
    ⟨trees, wrap_sub example_data.num_cols example_data.disallowed_split_variables.length,
      example_options.ci_group_size⟩,
    train_of_train_trees example_environment example_data example_options (fun _ => []) [0, 1]
      trees hok, hlen, rfl⟩

theorem train_tree_not_config {Tree G C S : Type} (E : Environment Tree G C S) (data : Data)
    (sampler : RandomSampler G) (c : C) (options : ForestOptions) (bgs : Int)
    (e : ConfigError) : train_tree E data sampler c options bgs ≠ .error (.config e) := by
  unfold train_tree
  simp only
  split
  · intro h; cases h
  · split
    · intro h; cases h
    · intro h; cases h

theorem train_with_seeds_not_config {Tree G C S : Type} (E : Environment Tree G C S)
    (data : Data) (options : ForestOptions) (bgs : Int) (e : ConfigError) :
    ∀ (seeds : List Nat) (trees : List Tree) (c : C),
      train_with_seeds E data options bgs seeds trees c ≠ .error (.config e)
  | [], trees, c => by
    intro h
    cases h
  | seed :: seeds, trees, c => by
    rw [train_with_seeds]
    cases ht : train_tree E data ⟨options.sampling_options, E.seed_sampler seed⟩ c options
        bgs with
    | error e2 =>
      intro h
      simp only [Except.error.injEq] at h
      exact train_tree_not_config E data _ c options bgs e (by rw [ht, h])
    | ok t => exact train_with_seeds_not_config E data options bgs e seeds _ _

theorem batch_task_not_config {Tree G C S : Type} (E : Environment Tree G C S) (data : Data)
    (options : ForestOptions) (r : List Nat) (crand : Nat → C) (i : Nat) (e : ConfigError) :
    batch_task E data options r crand i ≠ .error (.config e) := by
  unfold batch_task
  simp only
  rw [train_batch_eq]
  cases ht : train_with_seeds E data options (batch_block_group_size options)
      (batch_seeds E.udist (wrap_sub (r.getD (i + 1) 0) (r.getD i 0))
        (E.seed_batch ((options.random_seed + r.getD i 0) % 2 ^ 64))) [] (crand i) with
  | error e2 =>
    intro h
    simp only [Except.error.injEq] at h
    exact train_with_seeds_not_config E data options _ e _ _ _ (by rw [ht, h])
  | ok t =>
    intro h
    cases h

theorem collect_not_config {Tree : Type} (e : ConfigError) :
    ∀ (futures : List (Option (Except Failure (List Tree)))) (trees : List Tree),
      (∀ x ∈ futures, x ≠ some (.error (.config e))) →
      futures.foldlM collect_step trees ≠ .error (.config e)
  | [], trees, _ => by
    intro h
    cases h
  | x :: futures, trees, hall => by
    rw [List.foldlM_cons]
    have hx := hall x (List.mem_cons_self _ _)
    have hrest : ∀ y ∈ futures, y ≠ some (.error (.config e)) :=
      fun y hy => hall y (List.mem_cons_of_mem _ hy)
    cases x with
    | none =>
      intro h
      cases h
    | some t =>
      cases t with
      | error e2 =>
        intro h
        simp only [collect_step, bind, Except.bind, Except.error.injEq] at h
        exact hx (by rw [h])
      | ok r =>
        simp only [collect_step, bind, Except.bind]
        exact collect_not_config e futures _ hrest

theorem sample_product_eq (data : Data) (options : ForestOptions)
    (hrows53 : data.num_rows < 2 ^ 53) :
    sample_product data options
      = Double.of_exact ((data.num_rows : ℚ) * options.sample_fraction) := by
  unfold sample_product
  rw [of_exact_natCast data.num_rows hrows53]
  rfl

theorem of_exact_eq_finite (q r : ℚ) (h : round_double q = r) (h1 : -2 ^ 1024 < r)
    (h2 : r < 2 ^ 1024) : Double.of_exact q = .finite r := by
  unfold Double.of_exact
  rw [h, if_neg (not_le.mpr h2), if_neg (not_le.mpr h1)]

/-- C13, amended. Feasibility check of `train_trees`: it raises a configuration error exactly
when the double product `num_rows * sample_fraction` is below 1, or honesty is enabled and one
of the double products `(num_rows * sample_fraction) * honesty_fraction` and
`(num_rows * sample_fraction) * (1 - honesty_fraction)` is below 1, every operation rounding
to the nearest double. When it does, the outcome is the same whatever the tree grower, the
generators, `split_sequence`, the state of `rand()` and the completion order are: none of
them is consulted. With honesty disabled the condition is the first comparison alone. For
fewer than `2 ^ 53` rows the first product is the rounding of the exact product: an exact
product of at least 1 passes the first comparison, an exact product in `[0, 1/2]` raises, and
5 rows with sample fraction `1/10000` raise. -/
theorem train_trees_config_error_iff {Tree G C S : Type} (E : Environment Tree G C S)
    (data : Data) (options : ForestOptions) (crand : Nat → C) (completion : List Nat) :
    ((∃ e, train_trees E data options crand completion = .error (.config e))
        ↔ ((sample_product data options).lt_one = true
            ∨ (options.honesty = true
              ∧ ((Double.mul (sample_product data options)
                    (.finite options.tree_options.honesty_fraction)).lt_one = true
                ∨ (Double.mul (sample_product data options)
                    (Double.of_exact (1 - options.tree_options.honesty_fraction))).lt_one
                      = true))))
      ∧ (((sample_product data options).lt_one = true
            ∨ (options.honesty = true
              ∧ ((Double.mul (sample_product data options)
                    (.finite options.tree_options.honesty_fraction)).lt_one = true
                ∨ (Double.mul (sample_product data options)
                    (Double.of_exact (1 - options.tree_options.honesty_fraction))).lt_one
                      = true))) →
          ∀ (E2 : Environment Tree G C S) (crand2 : Nat → C) (completion2 : List Nat),
            train_trees E2 data options crand2 completion2
              = train_trees E data options crand completion)
      ∧ (options.honesty = false →
          ((∃ e, train_trees E data options crand completion = .error (.config e))
            ↔ (sample_product data options).lt_one = true))
      ∧ (data.num_rows < 2 ^ 53 →
          sample_product data options
            = Double.of_exact ((data.num_rows : ℚ) * options.sample_fraction))
      ∧ (data.num_rows < 2 ^ 53 → 1 ≤ (data.num_rows : ℚ) * options.sample_fraction →
          (sample_product data options).lt_one = false)
      ∧ (data.num_rows < 2 ^ 53 → 0 ≤ (data.num_rows : ℚ) * options.sample_fraction →
          (data.num_rows : ℚ) * options.sample_fraction ≤ 1 / 2 →
          train_trees E data options crand completion
            = .error (.config .sample_fraction_too_small))
      ∧ (data.num_rows = 5 → options.sample_fraction = 1 / 10000 →
          train_trees E data options crand completion
            = .error (.config .sample_fraction_too_small)) := by
  have hlow : data.num_rows < 2 ^ 53 → 0 ≤ (data.num_rows : ℚ) * options.sample_fraction →
      (data.num_rows : ℚ) * options.sample_fraction ≤ 1 / 2 →
      train_trees E data options crand completion
        = .error (.config .sample_fraction_too_small) := by
    intro h53 h0 h1
    have hp := sample_product_eq data options h53
    have hlt := lt_one_of_exact_of_le_half _ h0 h1
    rw [← hp] at hlt
    unfold sample_product at hlt
    unfold train_trees
    simp only
    rw [if_pos hlt]
  unfold sample_product
  have hiff : (∃ e, train_trees E data options crand completion = .error (.config e))
      ↔ ((Double.mul (Double.of_exact data.num_rows)
              (.finite options.sample_fraction)).lt_one = true
          ∨ (options.honesty = true
            ∧ ((Double.mul (Double.mul (Double.of_exact data.num_rows)
                    (.finite options.sample_fraction))
                  (.finite options.tree_options.honesty_fraction)).lt_one = true
              ∨ (Double.mul (Double.mul (Double.of_exact data.num_rows)
                    (.finite options.sample_fraction))
                  (Double.of_exact (1 - options.tree_options.honesty_fraction))).lt_one
                    = true))) := by
    constructor
    · rintro ⟨e, he⟩
      by_contra hcon
      rw [not_or] at hcon
      obtain ⟨h1, h2⟩ := hcon
      unfold train_trees at he
      simp only at he
      rw [if_neg h1, if_neg h2] at he
      by_cases h3 : options.ci_group_size = 0
      · rw [if_pos h3] at he
        cases he
      · rw [if_neg h3] at he
        by_cases h4 : (E.split_sequence 0
            (wrap_sub32 (options.num_trees / options.ci_group_size % 2 ^ 32) 1)
            options.num_threads).length = 0
        · rw [if_pos h4] at he
          cases he
        · rw [if_neg h4] at he
          refine collect_not_config e _ [] ?_ he
          intro x hx hxe
          rcases completed_futures_mem _ _ x hx with hnone | ⟨t, ht, hsome⟩
          · rw [hnone] at hxe
            cases hxe
          · obtain ⟨i, _, rfl⟩ := List.mem_map.mp ht
            rw [hsome] at hxe
            exact batch_task_not_config E data options _ crand i e (Option.some.inj hxe)
    · intro h
      by_cases h1 : (Double.mul (Double.of_exact data.num_rows)
          (.finite options.sample_fraction)).lt_one = true
      · refine ⟨.sample_fraction_too_small, ?_⟩
        unfold train_trees
        simp only
        rw [if_pos h1]
      · have h2 := h.resolve_left h1
        refine ⟨.honesty_fraction_too_extreme, ?_⟩
        unfold train_trees
        simp only
        rw [if_neg h1, if_pos h2]
  refine ⟨hiff, ?_, ?_, ?_, ?_, hlow, ?_⟩
  · intro h E2 crand2 completion2
    by_cases h1 : (Double.mul (Double.of_exact data.num_rows)
        (.finite options.sample_fraction)).lt_one = true
    · unfold train_trees
      simp only
      rw [if_pos h1, if_pos h1]
    · have h2 := h.resolve_left h1
      unfold train_trees
      simp only
      rw [if_neg h1, if_pos h2, if_neg h1, if_pos h2]
  · intro hh
    rw [hiff]
    simp [hh]
  · intro h53
    have := sample_product_eq data options h53
    unfold sample_product at this
    exact this
  · intro h53 h1
    have := sample_product_eq data options h53
    unfold sample_product at this
    rw [this]
    exact lt_one_of_exact_of_one_le _ h1
  · intro hrows hsf
    apply hlow
    · rw [hrows]; norm_num
    · rw [hrows, hsf]; norm_num
    · rw [hrows, hsf]; norm_num

/-- C13, as stated, fails at a rounding boundary: for 3 rows and the sample fraction that is
the double nearest `1/3`, the exact product is `1 - 2 ^ (-54)`, below 1, but the double product
is exactly 1, the test `< 1` is false and `train_trees` raises nothing: on the example
environment it trains its 5 groups. -/
theorem train_trees_accepts_product_rounded_to_one :
    round_double (1 / 3) = 6004799503160661 / 2 ^ 54
      ∧ (3 : ℚ) * (6004799503160661 / 2 ^ 54) < 1
      ∧ sample_product ⟨3, 3, []⟩
          ⟨10, 2, 6004799503160661 / 2 ^ 54, ⟨1 / 2, 0⟩, false, ⟨[], 0⟩, 2, 7, false, 0⟩
          = .finite 1
      ∧ ∃ trees, train_trees example_environment ⟨3, 3, []⟩
            ⟨10, 2, 6004799503160661 / 2 ^ 54, ⟨1 / 2, 0⟩, false, ⟨[], 0⟩, 2, 7, false, 0⟩
            (fun _ => []) [0, 1] = .ok trees
          ∧ trees.length = 5 := by
  have hp : sample_product ⟨3, 3, []⟩
      ⟨10, 2, 6004799503160661 / 2 ^ 54, ⟨1 / 2, 0⟩, false, ⟨[], 0⟩, 2, 7, false, 0⟩
      = .finite 1 := by
    rw [sample_product_eq _ _ (by norm_num)]
    exact of_exact_eq_finite _ 1 (by simpa using round_double_three_thirds)
      (by
        have : (0 : ℚ) < 2 ^ 1024 := by positivity
        linarith)
      (one_lt_pow₀ (by norm_num) (by norm_num))
  have hfeasible : Feasible ⟨3, 3, []⟩
      ⟨10, 2, 6004799503160661 / 2 ^ 54, ⟨1 / 2, 0⟩, false, ⟨[], 0⟩, 2, 7, false, 0⟩ := by
    constructor
    · rw [hp]
      simp [Double.lt_one]
    · intro h
      simp at h
  refine ⟨round_double_third, by norm_num, hp, ?_⟩
  exact train_trees_ok_length example_environment example_split_sequence_splits
    example_pow_faithful example_grower_never_fails ⟨3, 3, []⟩ (by decide)
    ⟨10, 2, 6004799503160661 / 2 ^ 54, ⟨1 / 2, 0⟩, false, ⟨[], 0⟩, 2, 7, false, 0⟩ (by decide)
    hfeasible (by decide) (by decide) (by decide) (by decide) (by decide)
    (fun _ => []) [0, 1] (by decide)

theorem subsample_sub4_loop_returns_iff {G : Type} (R : Random G) (hR : R.ShufflePermutes)
    (block_subsample_size : Nat) :
    ∀ (blocks : List (List Nat)) (acc : List Nat × List Nat × G),
      (blocks.foldlM (subsample_sub4_block R block_subsample_size) acc).isSome
        ↔ ∀ b ∈ blocks, block_subsample_size ≤ b.length
  | [], acc => by simp
  | b :: blocks, acc => by
    have hlen : (R.shuffle b acc.2.2).1.length = b.length := (hR _ b acc.2.2).length_eq
    rw [List.foldlM_cons]
    by_cases hb : block_subsample_size ≤ b.length
    · have hstep : ∃ acc2, subsample_sub4_block R block_subsample_size acc b = some acc2 := by
        unfold subsample_sub4_block
        simp only [hlen, if_pos hb]
        by_cases hlt : block_subsample_size < b.length
        · exact ⟨_, if_pos hlt⟩
        · exact ⟨_, if_neg hlt⟩
      obtain ⟨acc2, hacc2⟩ := hstep
      rw [hacc2]
      simp only [Option.bind_eq_bind, Option.some_bind]
      rw [subsample_sub4_loop_returns_iff R hR block_subsample_size blocks acc2]
      simp [hb]
    · have hstep : subsample_sub4_block R block_subsample_size acc b = none := by
        unfold subsample_sub4_block
        simp only [hlen, if_neg hb]
      rw [hstep]
      simp only [Option.bind_eq_bind, Option.none_bind, Option.isSome_none, Bool.false_eq_true,
        false_iff]
      intro h
      exact hb (h b (List.mem_cons_self _ _))

theorem subsample_sub4_returns_iff {G : Type} (R : Random G) (hR : R.ShufflePermutes)
    (samples : List Nat) (blocks : List (List Nat)) (sample_fraction : ℚ)
    (subsamples oob_samples : List Nat) (g : G) :
    (subsample_sub4 R samples blocks sample_fraction subsamples oob_samples g).isSome
      ↔ blocks ≠ []
        ∧ ∀ b ∈ blocks, ceil_mul (blocks.headD []).length sample_fraction ≤ b.length := by
  unfold subsample_sub4
  cases blocks with
  | nil => simp
  | cons first rest =>
    simp only [List.getElem?_cons_zero, List.headD_cons, ne_eq, reduceCtorEq, not_false_eq_true,
      true_and]
    exact subsample_sub4_loop_returns_iff R hR _ (first :: rest) _

/-- C23. Honesty method 4 on the blocks `[1, 2, 3, 4]` and `[5]` with fraction `1/2`: the
prefix length is `ceil(4 * 1/2) = 2`, taken from the first block, and the second block has one
element, so `shuffled_block.begin() + 2` lies past its end: the call faults for every state of
the generator, also through the dispatcher. Method 3, which compares its window with every
block, returns on the same input. -/
theorem subsample_sub4_overruns_shorter_block :
    ceil_mul ([1, 2, 3, 4] : List Nat).length (1 / 2) = 2
      ∧ ([5] : List Nat).length < 2
      ∧ (∀ tape : List Nat,
          subsample_sub4 tape_random [1, 2, 3, 4, 5] [[1, 2, 3, 4], [5]] (1 / 2) [] [] tape
            = none)
      ∧ (∀ tape c : List Nat,
          subsample_honesty tape_random tape_rand [1, 2, 3, 4, 5] [[1, 2, 3, 4], [5]]
            ⟨1 / 2, 4⟩ [] [] tape c = none)
      ∧ subsample_sub3 tape_rand [1, 2, 3, 4, 5] [[1, 2, 3, 4], [5]] (1 / 2) [] [] [1]
          = some ([2, 3, 5], [1, 4], []) := by
  have hc : ceil_mul ([1, 2, 3, 4] : List Nat).length (1 / 2) = 2 := ceil_mul_four_half
  have hc2 : ceil_mul 4 2⁻¹ = 2 := by simpa using ceil_mul_four_half
  have hnone : ∀ tape : List Nat,
      subsample_sub4 tape_random [1, 2, 3, 4, 5] [[1, 2, 3, 4], [5]] (1 / 2) [] [] tape
        = none := by
    intro tape
    have h := subsample_sub4_returns_iff tape_random tape_random_shuffle_permutes
      [1, 2, 3, 4, 5] [[1, 2, 3, 4], [5]] (1 / 2) [] [] tape
    cases hres : subsample_sub4 tape_random [1, 2, 3, 4, 5] [[1, 2, 3, 4], [5]] (1 / 2) [] []
        tape with
    | none => rfl
    | some r =>
      rw [hres] at h
      have h2 := (h.mp rfl).2 [5] (by simp)
      simp only [List.headD_cons] at h2
      rw [hc] at h2
      simp at h2
  refine ⟨hc, by decide, hnone, ?_, ?_⟩
  · intro tape c
    simp only [subsample_honesty]
    rw [if_neg (by decide), if_neg (by decide), if_neg (by decide), if_neg (by decide), hnone]
    rfl
  · simp [subsample_sub3, subsample_sub3_block, hc2, tape_rand]

theorem subsample_sub1_eq (samples : List Nat) (blocks : List (List Nat)) (sample_fraction : ℚ)
    (h1 : sample_fraction ≤ 1) (subsamples oob_samples : List Nat) :
    subsample_sub1 samples blocks sample_fraction subsamples oob_samples
      = some (subsamples ++ (blocks.map fun b => at_positions b
                (sub1_selects b.length (ceil_mul b.length sample_fraction))).flatten,
              oob_samples ++ (blocks.map fun b => at_positions b
                (fun i => !sub1_selects b.length (ceil_mul b.length sample_fraction) i)).flatten) := by
  unfold subsample_sub1
  rw [foldlM_append_parts
    (fun b => at_positions b (sub1_selects b.length (ceil_mul b.length sample_fraction)))
    (fun b => at_positions b
      (fun i => !sub1_selects b.length (ceil_mul b.length sample_fraction) i))]
  intro b _ a
  exact subsample_sub1_block_eq sample_fraction h1 a b

theorem subsample_sub2_eq (samples : List Nat) (blocks : List (List Nat)) (sample_fraction : ℚ)
    (h1 : sample_fraction ≤ 1) (subsamples oob_samples : List Nat) :
    subsample_sub2 samples blocks sample_fraction subsamples oob_samples
      = some (subsamples
                ++ (blocks.map fun b => b.take (ceil_mul b.length sample_fraction)).flatten,
              oob_samples
                ++ (blocks.map fun b => b.drop (ceil_mul b.length sample_fraction)).flatten) := by
  unfold subsample_sub2
  rw [foldlM_append_parts (fun b => b.take (ceil_mul b.length sample_fraction))
    (fun b => b.drop (ceil_mul b.length sample_fraction))]
  intro b _ a
  exact subsample_sub2_block_eq sample_fraction h1 a b

/-- C24. Honesty methods 1 and 2, called through the dispatcher with any generator, any
states of the generator and of `rand()` and any `samples`: the call gives what
`subsample_sub1` (`subsample_sub2`) gives on `blocks`, the fraction and the incoming sub and
oob alone, and it hands back the two states as it received them. So two calls that differ in
the generator, in its state and in `samples` produce the same sub and oob. For a fraction in
`[0, 1]` the call returns, with the incoming vectors extended block by block. -/
theorem subsample_sub1_sub2_leave_generator {G C : Type} (R R2 : Random G)
    (rand rand2 : C → Nat × C) (samples samples2 : List Nat) (blocks : List (List Nat))
    (sample_fraction : ℚ) (subsamples oob_samples : List Nat) (g g2 : G) (c c2 : C) :
    subsample_honesty R rand samples blocks ⟨sample_fraction, 1⟩ subsamples oob_samples g c
        = (subsample_sub1 [] blocks sample_fraction subsamples oob_samples).map
            (fun r => (r.1, r.2, g, c))
      ∧ subsample_honesty R rand samples blocks ⟨sample_fraction, 2⟩ subsamples oob_samples g c
        = (subsample_sub2 [] blocks sample_fraction subsamples oob_samples).map
            (fun r => (r.1, r.2, g, c))
      ∧ subsample_sub1 samples blocks sample_fraction subsamples oob_samples
        = subsample_sub1 samples2 blocks sample_fraction subsamples oob_samples
      ∧ subsample_sub2 samples blocks sample_fraction subsamples oob_samples
        = subsample_sub2 samples2 blocks sample_fraction subsamples oob_samples
      ∧ (subsample_honesty R rand samples blocks ⟨sample_fraction, 1⟩ subsamples oob_samples
            g c).map (fun r => (r.1, r.2.1))
        = (subsample_honesty R2 rand2 samples2 blocks ⟨sample_fraction, 1⟩ subsamples
            oob_samples g2 c2).map (fun r => (r.1, r.2.1))
      ∧ (subsample_honesty R rand samples blocks ⟨sample_fraction, 2⟩ subsamples oob_samples
            g c).map (fun r => (r.1, r.2.1))
        = (subsample_honesty R2 rand2 samples2 blocks ⟨sample_fraction, 2⟩ subsamples
            oob_samples g2 c2).map (fun r => (r.1, r.2.1))
      ∧ (0 ≤ sample_fraction → sample_fraction ≤ 1 →
          subsample_honesty R rand samples blocks ⟨sample_fraction, 1⟩ subsamples oob_samples
              g c
            = some (subsamples ++ (blocks.map fun b => at_positions b
                      (sub1_selects b.length (ceil_mul b.length sample_fraction))).flatten,
                    oob_samples ++ (blocks.map fun b => at_positions b
                      (fun i => !sub1_selects b.length
                        (ceil_mul b.length sample_fraction) i)).flatten,
                    g, c)
          ∧ subsample_honesty R rand samples blocks ⟨sample_fraction, 2⟩ subsamples
              oob_samples g c
            = some (subsamples
                      ++ (blocks.map fun b =>
                            b.take (ceil_mul b.length sample_fraction)).flatten,
                    oob_samples
                      ++ (blocks.map fun b =>
                            b.drop (ceil_mul b.length sample_fraction)).flatten,
                    g, c)) := by
  have d1 : ∀ (Q : Random G) (rd : C → Nat × C) (s : List Nat) (gg : G) (cc : C),
      subsample_honesty Q rd s blocks ⟨sample_fraction, 1⟩ subsamples oob_samples gg cc
        = (subsample_sub1 [] blocks sample_fraction subsamples oob_samples).map
            (fun r => (r.1, r.2, gg, cc)) := by
    intro Q rd s gg cc
    simp [subsample_honesty, subsample_sub1]
  have d2 : ∀ (Q : Random G) (rd : C → Nat × C) (s : List Nat) (gg : G) (cc : C),
      subsample_honesty Q rd s blocks ⟨sample_fraction, 2⟩ subsamples oob_samples gg cc
        = (subsample_sub2 [] blocks sample_fraction subsamples oob_samples).map
            (fun r => (r.1, r.2, gg, cc)) := by
    intro Q rd s gg cc
    simp [subsample_honesty, subsample_sub2]
  refine ⟨d1 R rand samples g c, d2 R rand samples g c, rfl, rfl, ?_, ?_, ?_⟩
  · rw [d1 R rand samples g c, d1 R2 rand2 samples2 g2 c2]
    simp [Option.map_map, Function.comp_def]
  · rw [d2 R rand samples g c, d2 R2 rand2 samples2 g2 c2]
    simp [Option.map_map, Function.comp_def]
  · intro _ h1
    rw [d1 R rand samples g c, d2 R rand samples g c,
      subsample_sub1_eq [] blocks sample_fraction h1 subsamples oob_samples,
      subsample_sub2_eq [] blocks sample_fraction h1 subsamples oob_samples]
    exact ⟨rfl, rfl⟩

theorem example_split_sequence_wrapped :
    example_split_sequence 0 4294967295 2 = [0, 2147483648, 4294967296] := by
  decide

/-- C25. With `num_trees = 1` and `ci_group_size = 2` the number of groups is `1 / 2 = 0` and
the `uint` difference `num_groups - 1` wraps around to `4294967295`, which is not below
`num_groups`; the same holds whenever `num_trees < ci_group_size`, and the range partitioner is
then called with the bounds 0 and `4294967295` (on the example partitioner the ranges cover
`2 ^ 32` groups instead of none). When there is at least one group (`ci_group_size ≥ 1`,
`ci_group_size ≤ num_trees < 2 ^ 32`) the bound is `num_groups - 1`, below `num_groups`. -/
theorem train_trees_group_bound_wraps :
    (1 / 2) % 2 ^ 32 = 0
      ∧ wrap_sub32 ((1 / 2) % 2 ^ 32) 1 = 4294967295
      ∧ ¬ wrap_sub32 ((1 / 2) % 2 ^ 32) 1 < (1 / 2) % 2 ^ 32
      ∧ (∀ num_trees ci_group_size : Nat, num_trees < ci_group_size →
          wrap_sub32 ((num_trees / ci_group_size) % 2 ^ 32) 1 = 4294967295
          ∧ ¬ wrap_sub32 ((num_trees / ci_group_size) % 2 ^ 32) 1
                < (num_trees / ci_group_size) % 2 ^ 32)
      ∧ thread_ranges_of example_environment
            ⟨1, 2, 1 / 2, ⟨1 / 2, 0⟩, false, ⟨[], 0⟩, 2, 7, false, 0⟩
          = [0, 2147483648, 4294967296]
      ∧ (∀ num_trees ci_group_size : Nat, 1 ≤ ci_group_size → ci_group_size ≤ num_trees →
          num_trees < 2 ^ 32 →
          wrap_sub32 ((num_trees / ci_group_size) % 2 ^ 32) 1 = num_trees / ci_group_size - 1
          ∧ wrap_sub32 ((num_trees / ci_group_size) % 2 ^ 32) 1
              < (num_trees / ci_group_size) % 2 ^ 32) := by
  refine ⟨by decide, by decide, by decide, ?_, ?_, ?_⟩
  · intro num_trees ci_group_size hlt
    rw [Nat.div_eq_of_lt hlt]
    exact ⟨by decide, by decide⟩
  · exact example_split_sequence_wrapped
  · intro num_trees ci_group_size hci hle hlt
    have hpos : 1 ≤ num_trees / ci_group_size := Nat.div_pos hle hci
    have hdiv : num_trees / ci_group_size ≤ num_trees := Nat.div_le_self _ _
    have hmod : (num_trees / ci_group_size) % 2 ^ 32 = num_trees / ci_group_size :=
      Nat.mod_eq_of_lt (by omega)
    rw [hmod]
    unfold wrap_sub32
    rw [if_pos hpos]
    omega

end grf
